import Mathlib

/-!
Verification of the claims about the A* grid-search repository (`a_star.py`).

The Python code is shallowly embedded below.  Positions are pairs of
integers, grids are lists of rows of characters ('x' marks a barrier), the
frontier heap is a list of `(priority, position)` entries popped at the
lexicographic minimum (the value `heapq.heappop` returns), dictionaries are
association lists written by prepending, and the unbounded `while` loops are
given explicit fuel together with theorems showing the fuel suffices.
-/

namespace AStar

abbrev Pos := Int × Int

abbrev Grid := List (List Char)

/-- Character of the grid at a position (row, column).  The source only reads
the grid after its own bounds checks, so on a square grid the defaults are
never consulted. -/
def cellAt (g : Grid) (p : Pos) : Char :=
  (g.getD p.1.toNat []).getD p.2.toNat 'x'

/-- The four neighbor offsets in the order the source iterates them:
`zip([0, -1, 0, 1], [1, 0, -1, 0])`, i.e. east, north, west, south. -/
def offsets : List (Int × Int) := [(0, 1), (-1, 0), (0, -1), (1, 0)]

/-- The source's bounds test: a candidate cell is skipped when
`r > limit or r < 0 or c > limit or c < 0` with `limit = len(grid) - 1`. -/
def inGrid (g : Grid) (p : Pos) : Prop :=
  ¬(p.1 > (g.length : Int) - 1 ∨ p.1 < 0 ∨ p.2 > (g.length : Int) - 1 ∨ p.2 < 0)

instance (g : Grid) (p : Pos) : Decidable (inGrid g p) :=
  inferInstanceAs (Decidable
    ¬(p.1 > (g.length : Int) - 1 ∨ p.1 < 0 ∨ p.2 > (g.length : Int) - 1 ∨ p.2 < 0))

/-- A cell is open when its marker is not `'x'`. -/
def openCell (g : Grid) (p : Pos) : Prop := cellAt g p ≠ 'x'

instance (g : Grid) (p : Pos) : Decidable (openCell g p) :=
  inferInstanceAs (Decidable (cellAt g p ≠ 'x'))

/-- `ShortestRoute.find_neighbors`: the in-bounds, non-barrier 4-neighbors of
`curr`, in source order. -/
def srFindNeighbors (g : Grid) (curr : Pos) : List Pos :=
  offsets.filterMap fun d =>
    let q : Pos := (curr.1 + d.1, curr.2 + d.2)
    if inGrid g q ∧ openCell g q then some q else none

/-- The direction test of `MinTurns.find_neighbors`: the route entry of the
current cell names the previous position `pp`, and the direction is
`'horizontal'` exactly when `curr_pos != prev_pos[1] and
curr_pos[0] == prev_pos[1][0]`.  A `none` route entry only ever reaches this
test for the start cell, which is filtered out before it. -/
def dirHorizontal (curr : Pos) (prev : Option (Nat × Pos)) : Prop :=
  match prev with
  | none => False
  | some (_, pp) => curr ≠ pp ∧ curr.1 = pp.1

instance (curr : Pos) (prev : Option (Nat × Pos)) :
    Decidable (dirHorizontal curr prev) :=
  match prev with
  | none => inferInstanceAs (Decidable False)
  | some (_, pp) => inferInstanceAs (Decidable (curr ≠ pp ∧ curr.1 = pp.1))

/-- The `is_turn` flag of `MinTurns.find_neighbors`: a first step from the
start is never a turn; otherwise the movement axis (`y != 0` means vertical)
is compared with the direction axis. -/
def mtIsTurn (s curr : Pos) (prev : Option (Nat × Pos)) (d : Int × Int) : Bool :=
  if curr = s then false
  else decide ¬((d.1 = 0) ↔ dirHorizontal curr prev)

/-- `MinTurns.find_neighbors`: open in-bounds neighbors paired with their
`is_turn` flag, in source order. -/
def mtFindNeighbors (g : Grid) (s curr : Pos) (prev : Option (Nat × Pos)) :
    List (Pos × Bool) :=
  offsets.filterMap fun d =>
    let q : Pos := (curr.1 + d.1, curr.2 + d.2)
    if inGrid g q ∧ openCell g q then some (q, mtIsTurn s curr prev d) else none

/-! ### The frontier heap

Python's `heapq` pops the lexicographically least `(priority, position)`
tuple; with identical duplicates interchangeable, the popped value is the
minimum of the multiset, which is what `popMin` computes. -/

/-- Lexicographic order on `(priority, (row, col))` frontier entries, exactly
Python's tuple comparison. -/
def entryLE (a b : Nat × Pos) : Prop :=
  a.1 < b.1 ∨ (a.1 = b.1 ∧ (a.2.1 < b.2.1 ∨ (a.2.1 = b.2.1 ∧ a.2.2 ≤ b.2.2)))

instance (a b : Nat × Pos) : Decidable (entryLE a b) :=
  inferInstanceAs (Decidable
    (a.1 < b.1 ∨ (a.1 = b.1 ∧ (a.2.1 < b.2.1 ∨ (a.2.1 = b.2.1 ∧ a.2.2 ≤ b.2.2)))))

/-- Least entry of a nonempty collection `e :: l` under `entryLE`. -/
def selMin (e : Nat × Pos) (l : List (Nat × Pos)) : Nat × Pos :=
  l.foldl (fun acc x => if entryLE acc x then acc else x) e

/-- `heappop`: remove and return the least entry. -/
def popMin : List (Nat × Pos) → Option ((Nat × Pos) × List (Nat × Pos))
  | [] => none
  | e :: es => some (selMin e es, (e :: es).erase (selMin e es))

/-! ### `MinTurns` -/

/-- Result of `MinTurns.search`: either `'No path found.', []` or the pair
(number of turn coordinates, path length). -/
inductive MTResult where
  | noPath : MTResult
  | found (turns len : Nat) : MTResult
deriving DecidableEq, Repr

/-- The mutable state of `MinTurns.search`'s loop: the frontier, the visited
set (as the list of cells in reverse insertion order), the route dictionary
`{position: None | (turn_count, previous_position)}`, and the `turn_count`
dictionary. -/
structure MTState where
  heap : List (Nat × Pos)
  visited : List Pos
  route : List (Pos × Option (Nat × Pos))
  tc : List (Pos × Nat)
deriving Repr

/-- The candidate cost `turns_so_far + int(did_turn)` of the neighbor loop. -/
def mtCand (t : Nat) (nb : Pos × Bool) : Nat := t + (if nb.2 then 1 else 0)

/-- The value stored into `turn_count[pos]`: Python's `if turn_count.get(pos):`
treats both a missing entry and a recorded `0` as falsy, overwriting with the
candidate; a recorded nonzero value is lowered with `min`. -/
def mtNewTC (t : Nat) (st : MTState) (nb : Pos × Bool) : Nat :=
  match List.lookup nb.1 st.tc with
  | some w => if w ≠ 0 then min w (mtCand t nb) else mtCand t nb
  | none => mtCand t nb

/-- The route dictionary after the neighbor loop body: overwritten when the
old route is absent, is `None` (falsy), or records more turns than the fresh
`turn_count[pos]`. -/
def mtNewRoute (curr : Pos) (t : Nat) (st : MTState) (nb : Pos × Bool) :
    List (Pos × Option (Nat × Pos)) :=
  match List.lookup nb.1 st.route with
  | some (some (v, _)) =>
      if mtNewTC t st nb < v then (nb.1, some (mtNewTC t st nb, curr)) :: st.route
      else st.route
  | some none => (nb.1, some (mtNewTC t st nb, curr)) :: st.route
  | none => (nb.1, some (mtNewTC t st nb, curr)) :: st.route

/-- The body of `MinTurns.search`'s neighbor loop for one neighbor `nb`:
skip visited cells; otherwise update `turn_count`, push the frontier entry,
and rewrite the route when appropriate. -/
def mtRelax (curr : Pos) (t : Nat) (st : MTState) (nb : Pos × Bool) : MTState :=
  if nb.1 ∈ st.visited then st
  else
    { heap := (mtNewTC t st nb, nb.1) :: st.heap
      visited := st.visited
      route := mtNewRoute curr t st nb
      tc := (nb.1, mtNewTC t st nb) :: st.tc }

/-- Outcome of one iteration of a search loop: `stuck` models an uncaught
Python exception (a missing dictionary key), `ret` a `return`, and `next` the
continuation state. -/
inductive StepOut (σ ρ : Type) where
  | stuck : StepOut σ ρ
  | ret : ρ → StepOut σ ρ
  | next : σ → StepOut σ ρ

/-- One iteration of `MinTurns.search`'s `while open_pos` loop.  When the
frontier is exhausted the final state is returned for path reconstruction. -/
def mtStep (g : Grid) (s : Pos) (st : MTState) : StepOut MTState MTState :=
  match popMin st.heap with
  | none => .ret st
  | some ((t, curr), rest) =>
    if curr ∈ st.visited then .next { st with heap := rest }
    else
      match List.lookup curr st.route with
      | none => .stuck
      | some prev =>
        .next ((mtFindNeighbors g s curr prev).foldl (mtRelax curr t)
          { heap := rest, visited := curr :: st.visited
            route := st.route, tc := st.tc })

/-- `MinTurns.search`'s loop with fuel. -/
def mtLoop (g : Grid) (s : Pos) : Nat → MTState → Option MTState
  | 0, _ => none
  | fuel + 1, st =>
    match mtStep g s st with
    | .stuck => none
    | .ret fin => some fin
    | .next st' => mtLoop g s fuel st'

/-- The first `i` iterations of `MinTurns.search`'s loop, for stating
properties of the execution trace. -/
def mtIter (g : Grid) (s : Pos) : Nat → MTState → Option MTState
  | 0, st => some st
  | i + 1, st =>
    match mtStep g s st with
    | .next st' => mtIter g s i st'
    | _ => none

/-- The initial state of `MinTurns.search`. -/
def mtInit (s : Pos) : MTState :=
  { heap := [(0, s)], visited := [], route := [(s, none)], tc := [(s, 0)] }

/-- Coordinate access `p[x]` for the alternating index of
`MinTurns.make_path`. -/
def coordAt (p : Pos) (x : Nat) : Int := if x = 0 then p.1 else p.2

/-- The `while route[curr_pos] is not None` walk of `MinTurns.make_path`,
with fuel.  `none` models a missing key or an unending chain; the source's
identity test `prev_pos is not self.end_pos` holds exactly on the first
iteration and is modelled by the equality test. -/
def mtWalk (e : Pos) (route : List (Pos × Option (Nat × Pos)))
    (fuel : Nat) (curr prev : Pos) (x turns len : Nat) : Option (Nat × Nat) :=
  match List.lookup curr route with
  | none => none
  | some none => some (turns, len)
  | some (some pr) =>
    match fuel with
    | 0 => none
    | fuel' + 1 =>
      if coordAt pr.2 x ≠ coordAt prev x then
        mtWalk e route fuel' pr.2 pr.2 (if x = 0 then 1 else 0)
          (if prev ≠ e then turns + 1 else turns) (len + 1)
      else
        mtWalk e route fuel' pr.2 pr.2 x turns (len + 1)

/-- `MinTurns.make_path`: `'No path found.'` when the end has no route entry
(or, as for the start cell, a `None` entry), otherwise the turn-counting
backward walk. -/
def mtMakePath (e : Pos) (route : List (Pos × Option (Nat × Pos)))
    (fuel : Nat) : Option MTResult :=
  match List.lookup e route with
  | none => some .noPath
  | some none => some .noPath
  | some (some _) =>
    (mtWalk e route fuel e e 0 0 1).map fun r => .found r.1 r.2

/-- Fuel that theorem `c9_searches_terminate` proves sufficient for the
search loops. -/
def fuelBound (g : Grid) : Nat := 5 * g.length * g.length + 10

/-- `MinTurns.search`: run the loop to frontier exhaustion, then reconstruct
from the end cell. -/
def mtSearch (g : Grid) (s e : Pos) : Option MTResult :=
  (mtLoop g s (fuelBound g) (mtInit s)).bind fun fin =>
    mtMakePath e fin.route (fin.visited.length + 1)

/-! ### `ShortestRoute` -/

/-- Result of `ShortestRoute.search`: either `'No path found.', []` or the
reconstructed path length. -/
inductive SRResult where
  | noPath : SRResult
  | found (len : Nat) : SRResult
deriving DecidableEq, Repr

/-- The mutable state of `ShortestRoute.search`'s loop; the route dictionary
maps a position to `(length, previous_position or None)`. -/
structure SRState where
  heap : List (Nat × Pos)
  visited : List Pos
  route : List (Pos × (Nat × Option Pos))
deriving Repr

/-- The backward walk of `ShortestRoute.make_path`, counting cells. -/
def srWalk (route : List (Pos × (Nat × Option Pos)))
    (fuel : Nat) (cur : Option Pos) (n : Nat) : Option Nat :=
  match cur with
  | none => some n
  | some p =>
    match List.lookup p route with
    | none => none
    | some pr =>
      match fuel with
      | 0 => none
      | fuel' + 1 => srWalk route fuel' pr.2 (n + 1)

/-- The route dictionary after `ShortestRoute.search`'s neighbor loop body:
overwritten when the old route is absent or records a greater length. -/
def srNewRoute (curr : Pos) (l : Nat) (st : SRState) (nb : Pos) :
    List (Pos × (Nat × Option Pos)) :=
  match List.lookup nb st.route with
  | some pr => if l < pr.1 then (nb, (l, some curr)) :: st.route else st.route
  | none => (nb, (l, some curr)) :: st.route

/-- The body of `ShortestRoute.search`'s neighbor loop.  The source mutates
the popped `length` variable itself (`length += 1`), so the running length is
threaded through the fold alongside the state. -/
def srRelax (curr : Pos) (acc : Nat × SRState) (nb : Pos) : Nat × SRState :=
  if nb ∈ acc.2.visited then acc
  else
    (acc.1 + 1,
      { heap := (acc.1 + 1, nb) :: acc.2.heap
        visited := acc.2.visited
        route := srNewRoute curr (acc.1 + 1) acc.2 nb })

/-- One iteration of `ShortestRoute.search`'s loop: return the reconstructed
length as soon as the end cell is popped, skip stale entries, otherwise
expand. -/
def srStep (g : Grid) (e : Pos) (st : SRState) : StepOut SRState SRResult :=
  match popMin st.heap with
  | none => .ret .noPath
  | some ((len, curr), rest) =>
    if curr = e then
      match srWalk st.route (st.visited.length + 1) (some e) 0 with
      | none => .stuck
      | some n => .ret (.found n)
    else if curr ∈ st.visited then .next { st with heap := rest }
    else
      .next ((srFindNeighbors g curr).foldl (srRelax curr)
        (len, { heap := rest, visited := curr :: st.visited,
                route := st.route })).2

/-- `ShortestRoute.search`'s loop with fuel. -/
def srLoop (g : Grid) (e : Pos) : Nat → SRState → Option SRResult
  | 0, _ => none
  | fuel + 1, st =>
    match srStep g e st with
    | .stuck => none
    | .ret r => some r
    | .next st' => srLoop g e fuel st'

/-- The first `i` iterations of `ShortestRoute.search`'s loop. -/
def srIter (g : Grid) (e : Pos) : Nat → SRState → Option SRState
  | 0, st => some st
  | i + 1, st =>
    match srStep g e st with
    | .next st' => srIter g e i st'
    | _ => none

/-- The initial state of `ShortestRoute.search`. -/
def srInit (s : Pos) : SRState :=
  { heap := [(1, s)], visited := [], route := [(s, (1, none))] }

/-- `ShortestRoute.search`. -/
def srSearch (g : Grid) (s e : Pos) : Option SRResult :=
  srLoop g e (fuelBound g) (srInit s)

/-! ### Reference notions used by the claims -/

/-- Two cells are 4-adjacent. -/
def Adjacent (a b : Pos) : Prop := (a.1 - b.1).natAbs + (a.2 - b.2).natAbs = 1

instance (a b : Pos) : Decidable (Adjacent a b) :=
  inferInstanceAs (Decidable ((a.1 - b.1).natAbs + (a.2 - b.2).natAbs = 1))

/-- Consecutive cells of the list are 4-adjacent. -/
def ChainAdj : List Pos → Prop
  | a :: b :: rest => Adjacent a b ∧ ChainAdj (b :: rest)
  | _ => True

/-- Decision procedure for `ChainAdj`. -/
def ChainAdj.dec : (l : List Pos) → Decidable (ChainAdj l)
  | [] => isTrue trivial
  | [_] => isTrue trivial
  | a :: b :: rest =>
    haveI := ChainAdj.dec (b :: rest)
    inferInstanceAs (Decidable (Adjacent a b ∧ ChainAdj (b :: rest)))

instance (l : List Pos) : Decidable (ChainAdj l) := ChainAdj.dec l

/-- A valid path: a nonempty list of open in-bounds cells, consecutive cells
4-adjacent, from `s` to `e`. -/
def ValidPath (g : Grid) (s e : Pos) (l : List Pos) : Prop :=
  l.head? = some s ∧ l.getLast? = some e ∧ ChainAdj l ∧
    ∀ p ∈ l, inGrid g p ∧ openCell g p

instance (g : Grid) (s e : Pos) (l : List Pos) : Decidable (ValidPath g s e l) :=
  inferInstanceAs (Decidable (l.head? = some s ∧ l.getLast? = some e ∧
    ChainAdj l ∧ ∀ p ∈ l, inGrid g p ∧ openCell g p))

/-- Number of turns (axis changes between consecutive edges) of a path. -/
def pathTurns : List Pos → Nat
  | a :: b :: c :: rest =>
    (if (decide (a.1 = b.1)) ≠ (decide (b.1 = c.1)) then 1 else 0) +
      pathTurns (b :: c :: rest)
  | _ => 0

/-- One hop to an open in-bounds 4-neighbor. -/
def NbrStep (g : Grid) (a b : Pos) : Prop := b ∈ srFindNeighbors g a

/-- `p` is connected to `s` through open cells. -/
def Reaches (g : Grid) (s p : Pos) : Prop :=
  Relation.ReflTransGen (NbrStep g) s p

/-- The spec's grids are square: every row is as long as the list of rows. -/
def SquareGrid (g : Grid) : Prop := ∀ row ∈ g, row.length = g.length

instance (g : Grid) : Decidable (SquareGrid g) :=
  inferInstanceAs (Decidable (∀ row ∈ g, row.length = g.length))

/-- The open in-bounds 4-neighbors of a cell, written independently of the
searches for the reference breadth-first search. -/
def openNbrs (g : Grid) (p : Pos) : List Pos :=
  (offsets.map fun d => ((p.1 + d.1, p.2 + d.2) : Pos)).filter
    fun q => decide (inGrid g q ∧ openCell g q)

/-- Independent breadth-first search: queue of (cell, cell-count from start),
cells marked when enqueued.  `some (some d)` means the end was found with
`d` cells on the path, `some none` that the open component of the start was
exhausted without finding it. -/
def bfsAux (g : Grid) (e : Pos) :
    Nat → List (Pos × Nat) → List Pos → Option (Option Nat)
  | 0, _, _ => none
  | _ + 1, [], _ => some none
  | fuel + 1, (p, d) :: q, seen =>
    if p = e then some (some d)
    else
      let fresh := (openNbrs g p).filter fun b => decide (b ∉ seen)
      bfsAux g e fuel (q ++ fresh.map fun b => (b, d + 1)) (seen ++ fresh)

/-- Breadth-first distance from `s` to `e` measured in cells (a path of one
step has distance 2, matching the searches' path lengths). -/
def bfsDist (g : Grid) (s e : Pos) : Option (Option Nat) :=
  bfsAux g e (g.length * g.length + 1) [(s, 1)] [s]

/-! ### Concrete grids appearing in the claims and counterexamples -/

/-- 3×3 grid `['..x', '...', '...']`. -/
def gridA : Grid := [['.', '.', 'x'], ['.', '.', '.'], ['.', '.', '.']]

/-- 3×3 grid `['...', '..x', '...']`. -/
def gridB : Grid := [['.', '.', '.'], ['.', '.', 'x'], ['.', '.', '.']]

/-- The spec's concrete scenario grid `['.x.', '...', '.x.']`. -/
def gridDetour : Grid := [['.', 'x', '.'], ['.', '.', '.'], ['.', 'x', '.']]

/-- The 1×1 all-open grid `['.']`. -/
def gridDot : Grid := [['.']]

/-- The disconnected 2×2 grid `['.x', 'x.']`. -/
def gridSplit : Grid := [['.', 'x'], ['x', '.']]

/-! ### Invariants of the search loops

`MTChain`/`SRChain` witness that the backward predecessor walk from a cell
terminates at the start: each step's predecessor lies in a strictly shorter
suffix of the visited list, so a derivation's height is at most the length
of the visited list plus one. -/

/-- `MTChain s route vis p`: the `MinTurns` route walk from `p` reaches the
start `s` (whose entry is the `None` terminator), stepping only through
predecessors recorded in ever-shorter suffixes of the visited list `vis`. -/
inductive MTChain (s : Pos) (route : List (Pos × Option (Nat × Pos))) :
    List Pos → Pos → Prop where
  | base (vis : List Pos) (h : List.lookup s route = some none) :
      MTChain s route vis s
  | step (vis pre suf : List Pos) (p q : Pos) (v : Nat)
      (hp : List.lookup p route = some (some (v, q)))
      (hsplit : vis = pre ++ q :: suf)
      (hq : MTChain s route suf q) : MTChain s route vis p

/-- `SRChain s route vis p`: the `ShortestRoute` route walk from `p` reaches
the start `s` (whose entry carries the `None` predecessor terminator). -/
inductive SRChain (s : Pos) (route : List (Pos × (Nat × Option Pos))) :
    List Pos → Pos → Prop where
  | base (vis : List Pos) (v : Nat) (h : List.lookup s route = some (v, none)) :
      SRChain s route vis s
  | step (vis pre suf : List Pos) (p q : Pos) (v : Nat)
      (hp : List.lookup p route = some (v, some q))
      (hsplit : vis = pre ++ q :: suf)
      (hq : SRChain s route suf q) : SRChain s route vis p

/-- All in-bounds positions of the grid. -/
def allCells (g : Grid) : List Pos :=
  (List.range g.length).flatMap fun r =>
    (List.range g.length).map fun c => (Int.ofNat r, Int.ofNat c)

/-- Number of in-bounds cells not yet visited. -/
def unvisCount (g : Grid) (vis : List Pos) : Nat :=
  ((allCells g).filter fun p => decide (p ∉ vis)).length

/-- Termination measure for `MinTurns.search`: each loop iteration strictly
decreases it (a stale pop shrinks the frontier; an expansion pushes at most
4 entries but visits a fresh cell). -/
def mtMeasure (g : Grid) (st : MTState) : Nat :=
  st.heap.length + 5 * unvisCount g st.visited

/-- Termination measure for `ShortestRoute.search`. -/
def srMeasure (g : Grid) (st : SRState) : Nat :=
  st.heap.length + 5 * unvisCount g st.visited

/-- Invariant of `MinTurns.search`'s loop tying the frontier, visited list
and route dictionary together. -/
structure MTInv (g : Grid) (s : Pos) (st : MTState) : Prop where
  heap_cells : ∀ en ∈ st.heap, inGrid g en.2 ∧ openCell g en.2
  heap_route : ∀ en ∈ st.heap, ∃ r, List.lookup en.2 st.route = some r
  heap_reach : ∀ en ∈ st.heap, Reaches g s en.2
  vis_cells : ∀ p ∈ st.visited, inGrid g p ∧ openCell g p
  vis_reach : ∀ p ∈ st.visited, Reaches g s p
  route_start : List.lookup s st.route = some none
  route_shape : ∀ p r, p ≠ s → List.lookup p st.route = some r →
    ∃ v q, r = some (v, q)
  route_pred : ∀ p v q, List.lookup p st.route = some (some (v, q)) →
    q ∈ st.visited ∧ Adjacent q p ∧ inGrid g p ∧ openCell g p
  route_reach : ∀ p r, List.lookup p st.route = some r → Reaches g s p
  route_chain : ∀ p r, List.lookup p st.route = some r →
    MTChain s st.route st.visited p
  vis_chain : ∀ pre q suf, st.visited = pre ++ q :: suf →
    MTChain s st.route suf q
  start_mem : s ∈ st.visited ∨ st = mtInit s

/-- Invariant of `ShortestRoute.search`'s loop. -/
structure SRInv (g : Grid) (s : Pos) (st : SRState) : Prop where
  heap_cells : ∀ en ∈ st.heap, inGrid g en.2 ∧ openCell g en.2
  heap_route : ∀ en ∈ st.heap, ∃ r, List.lookup en.2 st.route = some r
  heap_reach : ∀ en ∈ st.heap, Reaches g s en.2
  vis_cells : ∀ p ∈ st.visited, inGrid g p ∧ openCell g p
  vis_reach : ∀ p ∈ st.visited, Reaches g s p
  route_start : ∃ v, List.lookup s st.route = some (v, none)
  route_shape : ∀ p r, p ≠ s → List.lookup p st.route = some r →
    ∃ v q, r = (v, some q)
  route_pred : ∀ p v q, List.lookup p st.route = some (v, some q) →
    q ∈ st.visited ∧ Adjacent q p ∧ inGrid g p ∧ openCell g p
  route_reach : ∀ p r, List.lookup p st.route = some r → Reaches g s p
  route_chain : ∀ p r, List.lookup p st.route = some r →
    SRChain s st.route st.visited p
  vis_chain : ∀ pre q suf, st.visited = pre ++ q :: suf →
    SRChain s st.route suf q
  start_mem : s ∈ st.visited ∨ st = srInit s

/-! ### The zero-turn ray invariant of `MinTurns`

A cell recorded with `turn_count` 0 always lies on a straight line of open
cells from the start, reached without any turn; this is what makes the
Python truthiness accident (`if turn_count.get(pos):` treating a recorded 0
like a missing entry) harmless for downward-only mutation. -/

/-- One step back toward the start along the (unique) straight ray. -/
def rayPrev (s p : Pos) : Pos :=
  (p.1 - (p.1 - s.1).sign, p.2 - (p.2 - s.2).sign)

/-- `p` lies `k ≥ 1` straight steps from `s` in one of the four compass
directions, every cell of the segment after `s` being open and in bounds. -/
def ZeroRay (g : Grid) (s p : Pos) : Prop :=
  ∃ d ∈ offsets, ∃ k : Nat, 1 ≤ k ∧
    p = (s.1 + k * d.1, s.2 + k * d.2) ∧
    ∀ j : Nat, 1 ≤ j → j ≤ k →
      inGrid g (s.1 + j * d.1, s.2 + j * d.2) ∧
        openCell g (s.1 + j * d.1, s.2 + j * d.2)

/-- Invariant of `MinTurns.search` for the cost map: the recorded
`turn_count` values, frontier priorities and route entries stay consistent,
and zero-cost cells satisfy the ray property. -/
structure MTCostInv (g : Grid) (s : Pos) (st : MTState) : Prop where
  tc_start : List.lookup s st.tc = some 0
  route_start : List.lookup s st.route = some none
  route_shape : ∀ p r, p ≠ s → List.lookup p st.route = some r →
    ∃ v q, r = some (v, q)
  route_tc : ∀ p v q, p ≠ s → List.lookup p st.route = some (some (v, q)) →
    List.lookup p st.tc = some v
  heap_tc : ∀ en ∈ st.heap, ∃ w, List.lookup en.2 st.tc = some w ∧ w ≤ en.1
  tc_heap : ∀ p w, p ∉ st.visited → List.lookup p st.tc = some w →
    (w, p) ∈ st.heap
  tc_zero : ∀ p, p ≠ s → List.lookup p st.tc = some 0 →
    ZeroRay g s p ∧
      List.lookup p st.route = some (some (0, rayPrev s p)) ∧
      rayPrev s p ∈ st.visited
  tc_hist : ∀ p : Pos, List.Chain' (fun a b => a ≤ b)
    ((st.tc.filter fun e => p == e.1).map Prod.snd)
  start_mem : s ∈ st.visited ∨ st = mtInit s

/-- What is known about a popped frontier entry of priority `0`: it is either
the start itself or the tip of a zero-turn ray whose route entry points one
step back along the ray to an already visited cell. -/
def ZeroPop (g : Grid) (s curr : Pos) (prev : Option (Nat × Pos))
    (vis : List Pos) : Prop :=
  curr = s ∨
    (ZeroRay g s curr ∧ prev = some (0, rayPrev s curr) ∧ rayPrev s curr ∈ vis)

/-! ## Lemmas -/

theorem lookup_cons_self {β : Type} (k : Pos) (v : β) (l : List (Pos × β)) :
    List.lookup k ((k, v) :: l) = some v := by
  simp [List.lookup]

theorem lookup_cons_ne {β : Type} {k k' : Pos} (v : β) (l : List (Pos × β))
    (h : k ≠ k') : List.lookup k ((k', v) :: l) = List.lookup k l := by
  have hb : (k == k') = false := beq_false_of_ne h
  simp [List.lookup, hb]

theorem entryLE_refl (a : Nat × Pos) : entryLE a a := by
  unfold entryLE; omega

theorem entryLE_trans {a b c : Nat × Pos} (h1 : entryLE a b) (h2 : entryLE b c) :
    entryLE a c := by
  unfold entryLE at h1 h2 ⊢; omega

theorem entryLE_total (a b : Nat × Pos) : entryLE a b ∨ entryLE b a := by
  unfold entryLE; omega

theorem entryLE_fst {a b : Nat × Pos} (h : entryLE a b) : a.1 ≤ b.1 := by
  unfold entryLE at h; omega

theorem selMin_mem (e : Nat × Pos) (l : List (Nat × Pos)) :
    selMin e l ∈ e :: l := by
  induction l generalizing e with
  | nil => simp [selMin]
  | cons x xs ih =>
    have h : selMin e (x :: xs) = selMin (if entryLE e x then e else x) xs := rfl
    rw [h]
    rcases List.mem_cons.mp (ih (if entryLE e x then e else x)) with h1 | h1
    · rw [h1]
      by_cases hc : entryLE e x
      · simp [hc]
      · simp [hc]
    · exact List.mem_cons_of_mem _ (List.mem_cons_of_mem _ h1)

theorem selMin_le (e : Nat × Pos) (l : List (Nat × Pos)) :
    ∀ x ∈ e :: l, entryLE (selMin e l) x := by
  induction l generalizing e with
  | nil =>
    intro x hx
    rcases List.mem_cons.mp hx with rfl | h1
    · exact entryLE_refl x
    · simp at h1
  | cons y ys ih =>
    intro x hx
    have h : selMin e (y :: ys) = selMin (if entryLE e y then e else y) ys := rfl
    rw [h]
    have hfe : entryLE (if entryLE e y then e else y) e := by
      by_cases hc : entryLE e y
      · rw [if_pos hc]; exact entryLE_refl e
      · rw [if_neg hc]
        rcases entryLE_total e y with h2 | h2
        · exact absurd h2 hc
        · exact h2
    have hfy : entryLE (if entryLE e y then e else y) y := by
      by_cases hc : entryLE e y
      · rw [if_pos hc]; exact hc
      · rw [if_neg hc]; exact entryLE_refl y
    have hhead : entryLE (selMin (if entryLE e y then e else y) ys)
        (if entryLE e y then e else y) :=
      ih _ _ (List.mem_cons_self _ _)
    rcases List.mem_cons.mp hx with rfl | hx'
    · exact entryLE_trans hhead hfe
    rcases List.mem_cons.mp hx' with rfl | hx''
    · exact entryLE_trans hhead hfy
    · exact ih _ _ (List.mem_cons_of_mem _ hx'')

theorem popMin_eq_none {l : List (Nat × Pos)} (h : popMin l = none) : l = [] := by
  cases l with
  | nil => rfl
  | cons e es => simp [popMin] at h

theorem popMin_spec {l : List (Nat × Pos)} {m : Nat × Pos}
    {rest : List (Nat × Pos)} (h : popMin l = some (m, rest)) :
    m ∈ l ∧ rest = l.erase m ∧ ∀ x ∈ l, entryLE m x := by
  cases l with
  | nil => simp [popMin] at h
  | cons e es =>
    simp only [popMin, Option.some.injEq, Prod.mk.injEq] at h
    obtain ⟨h1, h2⟩ := h
    subst h1
    exact ⟨selMin_mem e es, h2.symm, selMin_le e es⟩

theorem length_filter_mono {α : Type} (l : List α) (p q : α → Bool)
    (h : ∀ x, q x = true → p x = true) :
    (l.filter q).length ≤ (l.filter p).length := by
  induction l with
  | nil => simp
  | cons a l ih =>
    by_cases hq : q a = true
    · simp [List.filter_cons, hq, h a hq]; omega
    · simp only [Bool.not_eq_true] at hq
      by_cases hp : p a = true
      · simp [List.filter_cons, hq, hp]; omega
      · simp only [Bool.not_eq_true] at hp
        simp [List.filter_cons, hq, hp]; omega

theorem length_filter_lt {α : Type} (l : List α) (p q : α → Bool)
    (h : ∀ x, q x = true → p x = true) (x0 : α) (hx : x0 ∈ l)
    (hp : p x0 = true) (hq : q x0 = false) :
    (l.filter q).length < (l.filter p).length := by
  induction l with
  | nil => simp at hx
  | cons a l ih =>
    rcases List.mem_cons.mp hx with rfl | hx'
    · have h1 := length_filter_mono l p q h
      simp [List.filter_cons, hp, hq]
      omega
    · have h1 := ih hx'
      by_cases hqa : q a = true
      · simp [List.filter_cons, hqa, h a hqa]; omega
      · simp only [Bool.not_eq_true] at hqa
        by_cases hpa : p a = true
        · simp [List.filter_cons, hqa, hpa]; omega
        · simp only [Bool.not_eq_true] at hpa
          simp [List.filter_cons, hqa, hpa]; omega

theorem popMin_rest_sub {l : List (Nat × Pos)} {m : Nat × Pos}
    {rest : List (Nat × Pos)} (h : popMin l = some (m, rest)) : rest ⊆ l := by
  rw [(popMin_spec h).2.1]
  intro x hx
  exact List.mem_of_mem_erase hx

theorem popMin_rest_len {l : List (Nat × Pos)} {m : Nat × Pos}
    {rest : List (Nat × Pos)} (h : popMin l = some (m, rest)) :
    rest.length + 1 = l.length := by
  obtain ⟨hm, hr, _⟩ := popMin_spec h
  rw [hr, List.length_erase_of_mem hm]
  have : 1 ≤ l.length := List.length_pos.mpr (List.ne_nil_of_mem hm)
  omega

theorem popMin_mem_rest {l : List (Nat × Pos)} {m : Nat × Pos}
    {rest : List (Nat × Pos)} (h : popMin l = some (m, rest)) {x : Nat × Pos}
    (hx : x ∈ l) (hne : x ≠ m) : x ∈ rest := by
  rw [(popMin_spec h).2.1]
  exact (List.mem_erase_of_ne hne).mpr hx

theorem mem_srFindNeighbors {g : Grid} {c q : Pos} :
    q ∈ srFindNeighbors g c ↔
      ∃ d ∈ offsets,
        (inGrid g (c.1 + d.1, c.2 + d.2) ∧ openCell g (c.1 + d.1, c.2 + d.2)) ∧
          ((c.1 + d.1, c.2 + d.2) : Pos) = q := by
  simp [srFindNeighbors, List.mem_filterMap, Option.ite_none_right_eq_some]

theorem mem_mtFindNeighbors {g : Grid} {s c : Pos} {prev : Option (Nat × Pos)}
    {nb : Pos × Bool} :
    nb ∈ mtFindNeighbors g s c prev ↔
      ∃ d ∈ offsets,
        (inGrid g (c.1 + d.1, c.2 + d.2) ∧ openCell g (c.1 + d.1, c.2 + d.2)) ∧
          (((c.1 + d.1, c.2 + d.2) : Pos), mtIsTurn s c prev d) = nb := by
  simp [mtFindNeighbors, List.mem_filterMap, Option.ite_none_right_eq_some]

theorem srFindNeighbors_cells {g : Grid} {c q : Pos}
    (h : q ∈ srFindNeighbors g c) : inGrid g q ∧ openCell g q := by
  rw [mem_srFindNeighbors] at h
  obtain ⟨d, _, hcond, rfl⟩ := h
  exact hcond

theorem srFindNeighbors_adjacent {g : Grid} {c q : Pos}
    (h : q ∈ srFindNeighbors g c) : Adjacent c q := by
  rw [mem_srFindNeighbors] at h
  obtain ⟨d, hd, _, rfl⟩ := h
  simp only [offsets, List.mem_cons, List.not_mem_nil, or_false] at hd
  unfold Adjacent
  rcases hd with rfl | rfl | rfl | rfl
  · show (c.1 - (c.1 + 0)).natAbs + (c.2 - (c.2 + 1)).natAbs = 1
    omega
  · show (c.1 - (c.1 + (-1))).natAbs + (c.2 - (c.2 + 0)).natAbs = 1
    omega
  · show (c.1 - (c.1 + 0)).natAbs + (c.2 - (c.2 + (-1))).natAbs = 1
    omega
  · show (c.1 - (c.1 + 1)).natAbs + (c.2 - (c.2 + 0)).natAbs = 1
    omega

theorem mtFindNeighbors_pos {g : Grid} {s c : Pos} {prev : Option (Nat × Pos)}
    {nb : Pos × Bool} (h : nb ∈ mtFindNeighbors g s c prev) :
    nb.1 ∈ srFindNeighbors g c := by
  rw [mem_mtFindNeighbors] at h
  obtain ⟨d, hd, hcond, heq⟩ := h
  rw [mem_srFindNeighbors]
  exact ⟨d, hd, hcond, by rw [← heq]⟩

theorem srFindNeighbors_len (g : Grid) (c : Pos) :
    (srFindNeighbors g c).length ≤ 4 :=
  List.length_filterMap_le _ _

theorem mtFindNeighbors_len (g : Grid) (s c : Pos) (prev : Option (Nat × Pos)) :
    (mtFindNeighbors g s c prev).length ≤ 4 :=
  List.length_filterMap_le _ _

/-! ### Chain lemmas -/

theorem mtChain_cons (c : Pos) {s : Pos} {route : List (Pos × Option (Nat × Pos))}
    {vis : List Pos} {p : Pos} (h : MTChain s route vis p) :
    MTChain s route (c :: vis) p := by
  cases h with
  | base _ hb => exact .base _ hb
  | step _ pre suf p q v hp hsplit hq =>
    exact .step _ (c :: pre) suf p q v hp (by rw [hsplit]; rfl) hq

theorem srChain_cons (c : Pos) {s : Pos} {route : List (Pos × (Nat × Option Pos))}
    {vis : List Pos} {p : Pos} (h : SRChain s route vis p) :
    SRChain s route (c :: vis) p := by
  cases h with
  | base _ v hb => exact .base _ v hb
  | step _ pre suf p q v hp hsplit hq =>
    exact .step _ (c :: pre) suf p q v hp (by rw [hsplit]; rfl) hq

theorem mtChain_ext {s : Pos} {route : List (Pos × Option (Nat × Pos))}
    {vis : List Pos} {p : Pos} (k : Pos) (w : Option (Nat × Pos))
    (h : MTChain s route vis p) :
    p ≠ k → (∀ y ∈ vis, y ≠ k) → s ≠ k → MTChain s ((k, w) :: route) vis p := by
  induction h with
  | base vis hb =>
    intro _ _ hs
    exact .base _ (by rw [lookup_cons_ne _ _ hs]; exact hb)
  | step vis pre suf p q v hpr hsplit hq ih =>
    intro hp hvis hs
    have hqk : q ≠ k := hvis q (by
      rw [hsplit]; exact List.mem_append_right _ (List.mem_cons_self _ _))
    have hsufk : ∀ y ∈ suf, y ≠ k := fun y hy => hvis y (by
      rw [hsplit]; exact List.mem_append_right _ (List.mem_cons_of_mem _ hy))
    exact .step _ pre suf p q v (by rw [lookup_cons_ne _ _ hp]; exact hpr)
      hsplit (ih hqk hsufk hs)

theorem srChain_ext {s : Pos} {route : List (Pos × (Nat × Option Pos))}
    {vis : List Pos} {p : Pos} (k : Pos) (w : Nat × Option Pos)
    (h : SRChain s route vis p) :
    p ≠ k → (∀ y ∈ vis, y ≠ k) → s ≠ k → SRChain s ((k, w) :: route) vis p := by
  induction h with
  | base vis v hb =>
    intro _ _ hs
    exact .base _ v (by rw [lookup_cons_ne _ _ hs]; exact hb)
  | step vis pre suf p q v hpr hsplit hq ih =>
    intro hp hvis hs
    have hqk : q ≠ k := hvis q (by
      rw [hsplit]; exact List.mem_append_right _ (List.mem_cons_self _ _))
    have hsufk : ∀ y ∈ suf, y ≠ k := fun y hy => hvis y (by
      rw [hsplit]; exact List.mem_append_right _ (List.mem_cons_of_mem _ hy))
    exact .step _ pre suf p q v (by rw [lookup_cons_ne _ _ hp]; exact hpr)
      hsplit (ih hqk hsufk hs)

theorem mtChain_walk {s : Pos} {route : List (Pos × Option (Nat × Pos))}
    {vis : List Pos} {p : Pos} (e : Pos) (h : MTChain s route vis p) :
    ∀ fuel prev x turns len, vis.length ≤ fuel →
      (mtWalk e route fuel p prev x turns len).isSome := by
  induction h with
  | base vis hb =>
    intro fuel prev x turns len _
    have heq : mtWalk e route fuel s prev x turns len = some (turns, len) := by
      unfold mtWalk
      rw [hb]
    rw [heq]
    rfl
  | step vis pre suf p q v hp hsplit hq ih =>
    intro fuel prev x turns len hlen
    rw [hsplit, List.length_append, List.length_cons] at hlen
    obtain ⟨f, rfl⟩ : ∃ f, fuel = f + 1 := ⟨fuel - 1, by omega⟩
    have hsuf : suf.length ≤ f := by omega
    have heq : mtWalk e route (f + 1) p prev x turns len =
        if coordAt q x ≠ coordAt prev x then
          mtWalk e route f q q (if x = 0 then 1 else 0)
            (if prev ≠ e then turns + 1 else turns) (len + 1)
        else mtWalk e route f q q x turns (len + 1) := by
      conv_lhs => unfold mtWalk
      rw [hp]
    rw [heq]
    by_cases hco : coordAt q x ≠ coordAt prev x
    · rw [if_pos hco]
      exact ih f _ _ _ _ hsuf
    · rw [if_neg hco]
      exact ih f _ _ _ _ hsuf

theorem srWalk_none (route : List (Pos × (Nat × Option Pos))) (f n : Nat) :
    srWalk route f none n = some n := by
  conv_lhs => unfold srWalk

theorem srChain_walk {s : Pos} {route : List (Pos × (Nat × Option Pos))}
    {vis : List Pos} {p : Pos} (h : SRChain s route vis p) :
    ∀ fuel n, vis.length + 1 ≤ fuel → (srWalk route fuel (some p) n).isSome := by
  induction h with
  | base vis v hb =>
    intro fuel n hf
    obtain ⟨f, rfl⟩ : ∃ f, fuel = f + 1 := ⟨fuel - 1, by omega⟩
    have heq : srWalk route (f + 1) (some s) n = some (n + 1) := by
      conv_lhs => unfold srWalk
      rw [hb]
      show srWalk route f none (n + 1) = some (n + 1)
      exact srWalk_none route f (n + 1)
    rw [heq]
    rfl
  | step vis pre suf p q v hp hsplit hq ih =>
    intro fuel n hf
    rw [hsplit, List.length_append, List.length_cons] at hf
    obtain ⟨f, rfl⟩ : ∃ f, fuel = f + 1 := ⟨fuel - 1, by omega⟩
    have hsuf : suf.length + 1 ≤ f := by omega
    have heq : srWalk route (f + 1) (some p) n = srWalk route f (some q) (n + 1) := by
      conv_lhs => unfold srWalk
      rw [hp]
    rw [heq]
    exact ih f (n + 1) hsuf

/-! ### Invariant preservation: `MinTurns` -/

theorem foldl_inv {α σ : Type} (P : σ → Prop) (Q : α → Prop) {f : σ → α → σ} :
    ∀ {l : List α}, (∀ a ∈ l, Q a) →
      (∀ acc a, P acc → Q a → P (f acc a)) →
      ∀ {s0 : σ}, P s0 → P (l.foldl f s0)
  | [], _, _, _, h0 => h0
  | a :: l, hQ, hP, s0, h0 =>
    foldl_inv P Q (fun b hb => hQ b (List.mem_cons_of_mem _ hb)) hP
      (hP s0 a h0 (hQ a (List.mem_cons_self _ _)))

theorem mem_allCells {g : Grid} {p : Pos} (h : inGrid g p) : p ∈ allCells g := by
  obtain ⟨a, b⟩ := p
  unfold inGrid at h
  push_neg at h
  obtain ⟨h1, h2, h3, h4⟩ := h
  unfold allCells
  simp only [List.mem_flatMap, List.mem_map, List.mem_range]
  refine ⟨a.toNat, by omega, b.toNat, by omega, ?_⟩
  rw [Prod.mk.injEq]
  constructor <;> (rw [Int.ofNat_eq_natCast]; omega)

theorem unvisCount_lt {g : Grid} {vis : List Pos} {c : Pos} (hc : inGrid g c)
    (hnv : c ∉ vis) : unvisCount g (c :: vis) < unvisCount g vis := by
  unfold unvisCount
  refine length_filter_lt (allCells g) _ _ ?_ c (mem_allCells hc) ?_ ?_
  · intro x hx
    rw [decide_eq_true_iff] at hx ⊢
    intro hmem
    exact hx (List.mem_cons_of_mem _ hmem)
  · rw [decide_eq_true_iff]
    exact hnv
  · rw [decide_eq_false_iff_not]
    intro hmem
    exact hmem (List.mem_cons_self _ _)

theorem allCells_length (g : Grid) :
    (allCells g).length = g.length * g.length := by
  unfold allCells
  rw [List.length_flatMap]
  have hmap : List.map (List.length ∘ fun r : Nat =>
        (List.range g.length).map fun c : Nat => ((Int.ofNat r, Int.ofNat c) : Pos))
        (List.range g.length) =
      List.map (fun _ : Nat => g.length) (List.range g.length) := by
    apply List.map_congr_left
    intro r _
    show ((List.range g.length).map _).length = g.length
    rw [List.length_map, List.length_range]
  rw [hmap, List.map_const', List.sum_replicate, List.length_range, smul_eq_mul]

theorem unvisCount_le {g : Grid} (vis : List Pos) :
    unvisCount g vis ≤ g.length * g.length := by
  unfold unvisCount
  calc ((allCells g).filter _).length ≤ (allCells g).length :=
        List.length_filter_le _ _
    _ = g.length * g.length := allCells_length g

theorem mtRelax_visited (curr : Pos) (t : Nat) (st : MTState) (nb : Pos × Bool) :
    (mtRelax curr t st nb).visited = st.visited := by
  unfold mtRelax
  split <;> rfl

theorem mtRelax_heap_len (curr : Pos) (t : Nat) (st : MTState) (nb : Pos × Bool) :
    (mtRelax curr t st nb).heap.length ≤ st.heap.length + 1 := by
  unfold mtRelax
  split
  · omega
  · simp

theorem mtRelax_not_vis {curr : Pos} {t : Nat} {acc : MTState} {nb : Pos × Bool}
    (hv : ¬nb.1 ∈ acc.visited) :
    mtRelax curr t acc nb =
      { heap := (mtNewTC t acc nb, nb.1) :: acc.heap
        visited := acc.visited
        route := mtNewRoute curr t acc nb
        tc := (nb.1, mtNewTC t acc nb) :: acc.tc } := by
  unfold mtRelax
  rw [if_neg hv]

theorem mtNewRoute_cases (curr : Pos) (t : Nat) (acc : MTState) (nb : Pos × Bool) :
    mtNewRoute curr t acc nb =
        (nb.1, some (mtNewTC t acc nb, curr)) :: acc.route ∨
      (mtNewRoute curr t acc nb = acc.route ∧
        ∃ r, List.lookup nb.1 acc.route = some r) := by
  unfold mtNewRoute
  cases hc : List.lookup nb.1 acc.route with
  | none => left; rfl
  | some r =>
    cases r with
    | none => left; rfl
    | some vq =>
      obtain ⟨v, q⟩ := vq
      by_cases hlt : mtNewTC t acc nb < v
      · left
        show (if mtNewTC t acc nb < v then
            (nb.1, some (mtNewTC t acc nb, curr)) :: acc.route else acc.route) = _
        rw [if_pos hlt]
      · right
        constructor
        · show (if mtNewTC t acc nb < v then
              (nb.1, some (mtNewTC t acc nb, curr)) :: acc.route else acc.route) = _
          rw [if_neg hlt]
        · exact ⟨some (v, q), rfl⟩

theorem mtRelax_inv {g : Grid} {s curr : Pos} {t : Nat} {acc : MTState}
    (hinv : MTInv g s acc) (hcv : curr ∈ acc.visited) (hreach : Reaches g s curr)
    (nb : Pos × Bool) (hnb : nb.1 ∈ srFindNeighbors g curr) :
    MTInv g s (mtRelax curr t acc nb) ∧
      (mtRelax curr t acc nb).visited = acc.visited := by
  by_cases hv : nb.1 ∈ acc.visited
  · unfold mtRelax
    rw [if_pos hv]
    exact ⟨hinv, rfl⟩
  · have hs_vis : s ∈ acc.visited := by
      rcases hinv.start_mem with h | h
      · exact h
      · rw [h] at hcv
        simp [mtInit] at hcv
    have hps : nb.1 ≠ s := fun he => hv (he ▸ hs_vis)
    have hpc : nb.1 ≠ curr := fun he => hv (he ▸ hcv)
    have hcells := srFindNeighbors_cells hnb
    have hadj := srFindNeighbors_adjacent hnb
    have hreach2 : Reaches g s nb.1 := Relation.ReflTransGen.tail hreach hnb
    have hvis_ne : ∀ y ∈ acc.visited, y ≠ nb.1 := fun y hy he => hv (he ▸ hy)
    rw [mtRelax_not_vis hv]
    have hroute := mtNewRoute_cases curr t acc nb
    have hpres : ∀ (p : Pos) (r0 : Option (Nat × Pos)),
        List.lookup p acc.route = some r0 →
        ∃ r, List.lookup p (mtNewRoute curr t acc nb) = some r := by
      intro p r0 h0
      rcases hroute with hR | ⟨hR, _⟩
      · rw [hR]
        by_cases hp : p = nb.1
        · subst hp; exact ⟨_, lookup_cons_self _ _ _⟩
        · rw [lookup_cons_ne _ _ hp]; exact ⟨r0, h0⟩
      · rw [hR]; exact ⟨r0, h0⟩
    have hpres_nb : ∃ r, List.lookup nb.1 (mtNewRoute curr t acc nb) = some r := by
      rcases hroute with hR | ⟨hR, r0, h0⟩
      · rw [hR]; exact ⟨_, lookup_cons_self _ _ _⟩
      · rw [hR]; exact ⟨r0, h0⟩
    refine ⟨⟨?_, ?_, ?_, ?_, ?_, ?_, ?_, ?_, ?_, ?_, ?_, ?_⟩, rfl⟩
    · intro en hen
      rcases List.mem_cons.mp hen with rfl | hen'
      · exact hcells
      · exact hinv.heap_cells en hen'
    · intro en hen
      rcases List.mem_cons.mp hen with rfl | hen'
      · exact hpres_nb
      · obtain ⟨r0, h0⟩ := hinv.heap_route en hen'
        exact hpres en.2 r0 h0
    · intro en hen
      rcases List.mem_cons.mp hen with rfl | hen'
      · exact hreach2
      · exact hinv.heap_reach en hen'
    · exact hinv.vis_cells
    · exact hinv.vis_reach
    · rcases hroute with hR | ⟨hR, _⟩
      · rw [hR, lookup_cons_ne _ _ (Ne.symm hps)]
        exact hinv.route_start
      · rw [hR]; exact hinv.route_start
    · intro p r hp hlook
      rcases hroute with hR | ⟨hR, _⟩
      · rw [hR] at hlook
        by_cases hpn : p = nb.1
        · subst hpn
          rw [lookup_cons_self] at hlook
          exact ⟨_, _, (Option.some.inj hlook).symm⟩
        · rw [lookup_cons_ne _ _ hpn] at hlook
          exact hinv.route_shape p r hp hlook
      · rw [hR] at hlook
        exact hinv.route_shape p r hp hlook
    · intro p v q hlook
      rcases hroute with hR | ⟨hR, _⟩
      · rw [hR] at hlook
        by_cases hpn : p = nb.1
        · subst hpn
          rw [lookup_cons_self] at hlook
          have hh := Option.some.inj hlook
          have hq : q = curr := by
            have := congrArg (fun o => o.map Prod.snd) hh
            simpa using this.symm
          subst hq
          exact ⟨hcv, hadj, hcells.1, hcells.2⟩
        · rw [lookup_cons_ne _ _ hpn] at hlook
          exact hinv.route_pred p v q hlook
      · rw [hR] at hlook
        exact hinv.route_pred p v q hlook
    · intro p r hlook
      rcases hroute with hR | ⟨hR, _⟩
      · rw [hR] at hlook
        by_cases hpn : p = nb.1
        · subst hpn; exact hreach2
        · rw [lookup_cons_ne _ _ hpn] at hlook
          exact hinv.route_reach p r hlook
      · rw [hR] at hlook
        exact hinv.route_reach p r hlook
    · intro p r hlook
      rcases hroute with hR | ⟨hR, _⟩
      · rw [hR] at hlook ⊢
        by_cases hpn : p = nb.1
        · subst hpn
          obtain ⟨pre, suf, hsplit⟩ := List.append_of_mem hcv
          have hchain := hinv.vis_chain pre curr suf hsplit
          have hsuf_ne : ∀ y ∈ suf, y ≠ nb.1 := by
            intro y hy
            apply hvis_ne y
            rw [hsplit]
            exact List.mem_append_right _ (List.mem_cons_of_mem _ hy)
          have hchain2 := mtChain_ext nb.1 (some (mtNewTC t acc nb, curr)) hchain
            (Ne.symm hpc) hsuf_ne (Ne.symm hps)
          exact MTChain.step _ pre suf nb.1 curr _ (lookup_cons_self _ _ _)
            hsplit hchain2
        · rw [lookup_cons_ne _ _ hpn] at hlook
          have hold := hinv.route_chain p r hlook
          exact mtChain_ext _ _ hold hpn hvis_ne (Ne.symm hps)
      · rw [hR] at hlook ⊢
        exact hinv.route_chain p r hlook
    · intro pre q suf hsplit
      rcases hroute with hR | ⟨hR, _⟩
      · rw [hR]
        have hold := hinv.vis_chain pre q suf hsplit
        have hq_ne : q ≠ nb.1 := by
          apply hvis_ne q
          rw [hsplit]
          exact List.mem_append_right _ (List.mem_cons_self _ _)
        have hsuf_ne : ∀ y ∈ suf, y ≠ nb.1 := by
          intro y hy
          apply hvis_ne y
          rw [hsplit]
          exact List.mem_append_right _ (List.mem_cons_of_mem _ hy)
        exact mtChain_ext _ _ hold hq_ne hsuf_ne (Ne.symm hps)
      · rw [hR]
        exact hinv.vis_chain pre q suf hsplit
    · exact Or.inl hs_vis

theorem mtFoldl_heap_le (curr : Pos) (t : Nat) :
    ∀ (l : List (Pos × Bool)) (acc : MTState),
      ((l.foldl (mtRelax curr t) acc).heap.length ≤ acc.heap.length + l.length)
  | [], acc => by simp
  | nb :: l, acc => by
    have h1 := mtFoldl_heap_le curr t l (mtRelax curr t acc nb)
    have h2 := mtRelax_heap_len curr t acc nb
    simp only [List.foldl_cons, List.length_cons]
    omega

theorem mtExpand_inv {g : Grid} {s : Pos} {st : MTState} (hinv : MTInv g s st)
    {t : Nat} {curr : Pos} {rest : List (Nat × Pos)}
    {prev : Option (Nat × Pos)}
    (hpop : popMin st.heap = some ((t, curr), rest)) (hncv : curr ∉ st.visited)
    (hprev : List.lookup curr st.route = some prev) :
    MTInv g s ((mtFindNeighbors g s curr prev).foldl (mtRelax curr t)
      { heap := rest, visited := curr :: st.visited
        route := st.route, tc := st.tc }) ∧
    ((mtFindNeighbors g s curr prev).foldl (mtRelax curr t)
      { heap := rest, visited := curr :: st.visited
        route := st.route, tc := st.tc }).visited = curr :: st.visited := by
  have hmem := (popMin_spec hpop).1
  have hcells := hinv.heap_cells _ hmem
  have hreach := hinv.heap_reach _ hmem
  have hsub := popMin_rest_sub hpop
  have hstart1 : s ∈ curr :: st.visited := by
    rcases hinv.start_mem with h | h
    · exact List.mem_cons_of_mem _ h
    · rw [h] at hpop
      have : ((t, curr), rest) = ((0, s), ([] : List (Nat × Pos))) := by
        have hpm : popMin (mtInit s).heap = some ((0, s), []) := by
          show some (selMin (0, s) [],
            ([(0, s)] : List (Nat × Pos)).erase (selMin (0, s) [])) = _
          rw [show selMin (0, s) ([] : List (Nat × Pos)) = (0, s) from rfl]
          rw [List.erase_cons_head]
        rw [hpm] at hpop
        exact (Option.some.inj hpop).symm
      have hcs : curr = s := congrArg (fun x => x.1.2) this
      rw [hcs]
      exact List.mem_cons_self _ _
  have hinv1 : MTInv g s
      { heap := rest, visited := curr :: st.visited
        route := st.route, tc := st.tc } := by
    refine ⟨?_, ?_, ?_, ?_, ?_, ?_, ?_, ?_, ?_, ?_, ?_, ?_⟩
    · intro en hen; exact hinv.heap_cells en (hsub hen)
    · intro en hen; exact hinv.heap_route en (hsub hen)
    · intro en hen; exact hinv.heap_reach en (hsub hen)
    · intro p hp
      rcases List.mem_cons.mp hp with rfl | hp'
      · exact hcells
      · exact hinv.vis_cells p hp'
    · intro p hp
      rcases List.mem_cons.mp hp with rfl | hp'
      · exact hreach
      · exact hinv.vis_reach p hp'
    · exact hinv.route_start
    · exact hinv.route_shape
    · intro p v q hlook
      obtain ⟨h1, h2, h3, h4⟩ := hinv.route_pred p v q hlook
      exact ⟨List.mem_cons_of_mem _ h1, h2, h3, h4⟩
    · exact hinv.route_reach
    · intro p r hlook
      exact mtChain_cons curr (hinv.route_chain p r hlook)
    · intro pre q suf hsplit
      cases pre with
      | nil =>
        have hq : q = curr := by
          have := congrArg (fun l : List Pos => l.head?) hsplit
          simpa using this.symm
        have hsuf : suf = st.visited := by
          have := congrArg (fun l : List Pos => l.tail) hsplit
          simpa using this.symm
        rw [hq, hsuf]
        exact hinv.route_chain curr prev hprev
      | cons a pre' =>
        have hsplit' : st.visited = pre' ++ q :: suf := by
          have := congrArg (fun l : List Pos => l.tail) hsplit
          simpa using this
        exact hinv.vis_chain pre' q suf hsplit'
    · exact Or.inl hstart1
  exact foldl_inv
    (fun acc => MTInv g s acc ∧ acc.visited = curr :: st.visited)
    (fun nb : Pos × Bool => nb.1 ∈ srFindNeighbors g curr)
    (fun nb hnb => mtFindNeighbors_pos hnb)
    (fun acc nb hacc hq => by
      have hcv : curr ∈ acc.visited := by
        rw [hacc.2]
        exact List.mem_cons_self _ _
      obtain ⟨h1, h2⟩ := mtRelax_inv hacc.1 hcv hreach nb hq
      exact ⟨h1, by rw [h2, hacc.2]⟩)
    ⟨hinv1, rfl⟩

theorem mtStep_empty_eq {g : Grid} {s : Pos} {st : MTState}
    (hpop : popMin st.heap = none) : mtStep g s st = .ret st := by
  unfold mtStep
  rw [hpop]

theorem mtStep_pop_eq {g : Grid} {s : Pos} {st : MTState} {t : Nat} {curr : Pos}
    {rest : List (Nat × Pos)} (hpop : popMin st.heap = some ((t, curr), rest)) :
    mtStep g s st =
      if curr ∈ st.visited then .next { st with heap := rest }
      else
        match List.lookup curr st.route with
        | none => .stuck
        | some prev =>
          .next ((mtFindNeighbors g s curr prev).foldl (mtRelax curr t)
            { heap := rest, visited := curr :: st.visited
              route := st.route, tc := st.tc }) := by
  unfold mtStep
  rw [hpop]

theorem mtStep_ret {g : Grid} {s : Pos} {st fin : MTState}
    (h : mtStep g s st = .ret fin) : fin = st ∧ popMin st.heap = none := by
  cases hpop : popMin st.heap with
  | none =>
    rw [mtStep_empty_eq hpop] at h
    cases h
    exact ⟨rfl, rfl⟩
  | some pr =>
    obtain ⟨⟨t, curr⟩, rest⟩ := pr
    rw [mtStep_pop_eq hpop] at h
    by_cases hv : curr ∈ st.visited
    · rw [if_pos hv] at h
      cases h
    · rw [if_neg hv] at h
      cases hlook : List.lookup curr st.route with
      | none => rw [hlook] at h; cases h
      | some prev => rw [hlook] at h; cases h

theorem mtStep_next {g : Grid} {s : Pos} {st st' : MTState} (hinv : MTInv g s st)
    (h : mtStep g s st = .next st') :
    MTInv g s st' ∧ mtMeasure g st' < mtMeasure g st := by
  cases hpop : popMin st.heap with
  | none => rw [mtStep_empty_eq hpop] at h; cases h
  | some pr =>
    obtain ⟨⟨t, curr⟩, rest⟩ := pr
    rw [mtStep_pop_eq hpop] at h
    have hlen := popMin_rest_len hpop
    by_cases hv : curr ∈ st.visited
    · rw [if_pos hv] at h
      cases h
      constructor
      · refine ⟨?_, ?_, ?_, hinv.vis_cells, hinv.vis_reach, hinv.route_start,
          hinv.route_shape, hinv.route_pred, hinv.route_reach,
          hinv.route_chain, hinv.vis_chain, ?_⟩
        · intro en hen; exact hinv.heap_cells en (popMin_rest_sub hpop hen)
        · intro en hen; exact hinv.heap_route en (popMin_rest_sub hpop hen)
        · intro en hen; exact hinv.heap_reach en (popMin_rest_sub hpop hen)
        · left
          rcases hinv.start_mem with hs | hs
          · exact hs
          · rw [hs] at hv
            simp [mtInit] at hv
      · show rest.length + 5 * unvisCount g st.visited <
          st.heap.length + 5 * unvisCount g st.visited
        omega
    · rw [if_neg hv] at h
      cases hlook : List.lookup curr st.route with
      | none => rw [hlook] at h; cases h
      | some prev =>
        rw [hlook] at h
        cases h
        obtain ⟨hinv', hvis'⟩ := mtExpand_inv hinv hpop hv hlook
        refine ⟨hinv', ?_⟩
        have hheap' := mtFoldl_heap_le curr t (mtFindNeighbors g s curr prev)
          { heap := rest, visited := curr :: st.visited
            route := st.route, tc := st.tc }
        have hnb_le := mtFindNeighbors_len g s curr prev
        have hcells := hinv.heap_cells _ (popMin_spec hpop).1
        have huv : unvisCount g (curr :: st.visited) < unvisCount g st.visited :=
          unvisCount_lt hcells.1 hv
        unfold mtMeasure
        rw [hvis']
        simp only at hheap' ⊢
        omega

theorem mtStep_no_stuck {g : Grid} {s : Pos} {st : MTState} (hinv : MTInv g s st) :
    mtStep g s st ≠ .stuck := by
  intro h
  cases hpop : popMin st.heap with
  | none => rw [mtStep_empty_eq hpop] at h; cases h
  | some pr =>
    obtain ⟨⟨t, curr⟩, rest⟩ := pr
    rw [mtStep_pop_eq hpop] at h
    by_cases hv : curr ∈ st.visited
    · rw [if_pos hv] at h; cases h
    · rw [if_neg hv] at h
      cases hlook : List.lookup curr st.route with
      | none =>
        obtain ⟨r, hr⟩ := hinv.heap_route _ (popMin_spec hpop).1
        rw [hr] at hlook
        cases hlook
      | some prev => rw [hlook] at h; cases h

theorem mtLoop_run {g : Grid} {s : Pos} :
    ∀ (fuel : Nat) (st : MTState), MTInv g s st → mtMeasure g st < fuel →
      ∃ fin, mtLoop g s fuel st = some fin ∧ MTInv g s fin := by
  intro fuel
  induction fuel with
  | zero => intro st _ h; omega
  | succ f ih =>
    intro st hinv hm
    cases hstep : mtStep g s st with
    | stuck => exact absurd hstep (mtStep_no_stuck hinv)
    | ret fin =>
      obtain ⟨heq, _⟩ := mtStep_ret hstep
      refine ⟨fin, ?_, heq ▸ hinv⟩
      unfold mtLoop
      rw [hstep]
    | next st' =>
      obtain ⟨hinv', hm'⟩ := mtStep_next hinv hstep
      obtain ⟨fin, hrun, hfin⟩ := ih st' hinv' (by omega)
      refine ⟨fin, ?_, hfin⟩
      unfold mtLoop
      rw [hstep]
      exact hrun

theorem mtInv_init {g : Grid} {s : Pos} (hin : inGrid g s) (hop : openCell g s) :
    MTInv g s (mtInit s) := by
  have hroute : (mtInit s).route = [(s, none)] := rfl
  have hvis : (mtInit s).visited = [] := rfl
  refine ⟨?_, ?_, ?_, ?_, ?_, ?_, ?_, ?_, ?_, ?_, ?_, ?_⟩
  · intro en hen
    rcases List.mem_cons.mp hen with rfl | hen'
    · exact ⟨hin, hop⟩
    · simp at hen'
  · intro en hen
    rcases List.mem_cons.mp hen with rfl | hen'
    · exact ⟨none, lookup_cons_self _ _ _⟩
    · simp at hen'
  · intro en hen
    rcases List.mem_cons.mp hen with rfl | hen'
    · exact Relation.ReflTransGen.refl
    · simp at hen'
  · intro p hp
    simp [mtInit] at hp
  · intro p hp
    simp [mtInit] at hp
  · rw [hroute]
    exact lookup_cons_self _ _ _
  · intro p r hp hlook
    rw [hroute, lookup_cons_ne _ _ hp] at hlook
    cases hlook
  · intro p v q hlook
    rw [hroute] at hlook
    by_cases hp : p = s
    · subst hp
      rw [lookup_cons_self] at hlook
      cases Option.some.inj hlook
    · rw [lookup_cons_ne _ _ hp] at hlook
      cases hlook
  · intro p r hlook
    by_cases hp : p = s
    · subst hp
      exact Relation.ReflTransGen.refl
    · rw [hroute, lookup_cons_ne _ _ hp] at hlook
      cases hlook
  · intro p r hlook
    by_cases hp : p = s
    · subst hp
      refine MTChain.base _ ?_
      rw [hroute]
      exact lookup_cons_self _ _ _
    · rw [hroute, lookup_cons_ne _ _ hp] at hlook
      cases hlook
  · intro pre q suf hsplit
    rw [hvis] at hsplit
    have : ([] : List Pos) ≠ pre ++ q :: suf := by
      cases pre <;> simp
    exact absurd hsplit this
  · exact Or.inr rfl

theorem mtMeasure_init {g : Grid} (s : Pos) :
    mtMeasure g (mtInit s) < fuelBound g := by
  have hle := unvisCount_le (g := g) ([] : List Pos)
  show 1 + 5 * unvisCount g [] < 5 * g.length * g.length + 10
  rw [mul_assoc]
  omega

theorem mtIter_inv {g : Grid} {s : Pos} :
    ∀ (i : Nat) {st st' : MTState}, MTInv g s st →
      mtIter g s i st = some st' → MTInv g s st' := by
  intro i
  induction i with
  | zero =>
    intro st st' hinv h
    cases h
    exact hinv
  | succ n ih =>
    intro st st' hinv h
    unfold mtIter at h
    cases hstep : mtStep g s st with
    | stuck => rw [hstep] at h; cases h
    | ret fin => rw [hstep] at h; cases h
    | next st1 =>
      rw [hstep] at h
      exact ih (mtStep_next hinv hstep).1 h

/-! ### Invariant preservation: `ShortestRoute` -/

theorem srRelax_not_vis {curr : Pos} {acc : Nat × SRState} {nb : Pos}
    (hv : ¬nb ∈ acc.2.visited) :
    srRelax curr acc nb =
      (acc.1 + 1,
        { heap := (acc.1 + 1, nb) :: acc.2.heap
          visited := acc.2.visited
          route := srNewRoute curr (acc.1 + 1) acc.2 nb }) := by
  unfold srRelax
  rw [if_neg hv]

theorem srRelax_vis {curr : Pos} {acc : Nat × SRState} {nb : Pos}
    (hv : nb ∈ acc.2.visited) : srRelax curr acc nb = acc := by
  unfold srRelax
  rw [if_pos hv]

theorem srNewRoute_cases (curr : Pos) (l : Nat) (st : SRState) (nb : Pos) :
    srNewRoute curr l st nb = (nb, (l, some curr)) :: st.route ∨
      (srNewRoute curr l st nb = st.route ∧
        ∃ r, List.lookup nb st.route = some r) := by
  unfold srNewRoute
  cases hc : List.lookup nb st.route with
  | none => left; rfl
  | some pr =>
    obtain ⟨v, q⟩ := pr
    by_cases hlt : l < v
    · left
      show (if l < v then (nb, (l, some curr)) :: st.route else st.route) = _
      rw [if_pos hlt]
    · right
      constructor
      · show (if l < v then (nb, (l, some curr)) :: st.route else st.route) = _
        rw [if_neg hlt]
      · exact ⟨(v, q), rfl⟩

theorem srRelax_inv {g : Grid} {s curr : Pos} {acc : Nat × SRState}
    (hinv : SRInv g s acc.2) (hcv : curr ∈ acc.2.visited)
    (hreach : Reaches g s curr)
    (nb : Pos) (hnb : nb ∈ srFindNeighbors g curr) :
    SRInv g s (srRelax curr acc nb).2 ∧
      (srRelax curr acc nb).2.visited = acc.2.visited := by
  by_cases hv : nb ∈ acc.2.visited
  · rw [srRelax_vis hv]
    exact ⟨hinv, rfl⟩
  · have hs_vis : s ∈ acc.2.visited := by
      rcases hinv.start_mem with h | h
      · exact h
      · rw [h] at hcv
        simp [srInit] at hcv
    have hps : nb ≠ s := fun he => hv (he ▸ hs_vis)
    have hpc : nb ≠ curr := fun he => hv (he ▸ hcv)
    have hcells := srFindNeighbors_cells hnb
    have hadj := srFindNeighbors_adjacent hnb
    have hreach2 : Reaches g s nb := Relation.ReflTransGen.tail hreach hnb
    have hvis_ne : ∀ y ∈ acc.2.visited, y ≠ nb := fun y hy he => hv (he ▸ hy)
    rw [srRelax_not_vis hv]
    have hroute := srNewRoute_cases curr (acc.1 + 1) acc.2 nb
    have hpres : ∀ (p : Pos) (r0 : Nat × Option Pos),
        List.lookup p acc.2.route = some r0 →
        ∃ r, List.lookup p (srNewRoute curr (acc.1 + 1) acc.2 nb) = some r := by
      intro p r0 h0
      rcases hroute with hR | ⟨hR, _⟩
      · rw [hR]
        by_cases hp : p = nb
        · subst hp; exact ⟨_, lookup_cons_self _ _ _⟩
        · rw [lookup_cons_ne _ _ hp]; exact ⟨r0, h0⟩
      · rw [hR]; exact ⟨r0, h0⟩
    have hpres_nb : ∃ r,
        List.lookup nb (srNewRoute curr (acc.1 + 1) acc.2 nb) = some r := by
      rcases hroute with hR | ⟨hR, r0, h0⟩
      · rw [hR]; exact ⟨_, lookup_cons_self _ _ _⟩
      · rw [hR]; exact ⟨r0, h0⟩
    refine ⟨⟨?_, ?_, ?_, ?_, ?_, ?_, ?_, ?_, ?_, ?_, ?_, ?_⟩, rfl⟩
    · intro en hen
      rcases List.mem_cons.mp hen with rfl | hen'
      · exact hcells
      · exact hinv.heap_cells en hen'
    · intro en hen
      rcases List.mem_cons.mp hen with rfl | hen'
      · exact hpres_nb
      · obtain ⟨r0, h0⟩ := hinv.heap_route en hen'
        exact hpres en.2 r0 h0
    · intro en hen
      rcases List.mem_cons.mp hen with rfl | hen'
      · exact hreach2
      · exact hinv.heap_reach en hen'
    · exact hinv.vis_cells
    · exact hinv.vis_reach
    · obtain ⟨v0, h0⟩ := hinv.route_start
      rcases hroute with hR | ⟨hR, _⟩
      · rw [hR, lookup_cons_ne _ _ (Ne.symm hps)]
        exact ⟨v0, h0⟩
      · rw [hR]; exact ⟨v0, h0⟩
    · intro p r hp hlook
      rcases hroute with hR | ⟨hR, _⟩
      · rw [hR] at hlook
        by_cases hpn : p = nb
        · subst hpn
          rw [lookup_cons_self] at hlook
          exact ⟨_, _, (Option.some.inj hlook).symm⟩
        · rw [lookup_cons_ne _ _ hpn] at hlook
          exact hinv.route_shape p r hp hlook
      · rw [hR] at hlook
        exact hinv.route_shape p r hp hlook
    · intro p v q hlook
      rcases hroute with hR | ⟨hR, _⟩
      · rw [hR] at hlook
        by_cases hpn : p = nb
        · subst hpn
          rw [lookup_cons_self] at hlook
          have hh := Option.some.inj hlook
          have hq : q = curr := by
            have := congrArg (fun pr : Nat × Option Pos => pr.2) hh
            simpa using this.symm
          subst hq
          exact ⟨hcv, hadj, hcells.1, hcells.2⟩
        · rw [lookup_cons_ne _ _ hpn] at hlook
          exact hinv.route_pred p v q hlook
      · rw [hR] at hlook
        exact hinv.route_pred p v q hlook
    · intro p r hlook
      rcases hroute with hR | ⟨hR, _⟩
      · rw [hR] at hlook
        by_cases hpn : p = nb
        · subst hpn; exact hreach2
        · rw [lookup_cons_ne _ _ hpn] at hlook
          exact hinv.route_reach p r hlook
      · rw [hR] at hlook
        exact hinv.route_reach p r hlook
    · intro p r hlook
      rcases hroute with hR | ⟨hR, _⟩
      · rw [hR] at hlook ⊢
        by_cases hpn : p = nb
        · subst p
          obtain ⟨pre, suf, hsplit⟩ := List.append_of_mem hcv
          have hchain := hinv.vis_chain pre curr suf hsplit
          have hsuf_ne : ∀ y ∈ suf, y ≠ nb := by
            intro y hy
            apply hvis_ne y
            rw [hsplit]
            exact List.mem_append_right _ (List.mem_cons_of_mem _ hy)
          have hchain2 := srChain_ext nb (acc.1 + 1, some curr) hchain
            (Ne.symm hpc) hsuf_ne (Ne.symm hps)
          exact SRChain.step _ pre suf nb curr _ (lookup_cons_self _ _ _)
            hsplit hchain2
        · rw [lookup_cons_ne _ _ hpn] at hlook
          have hold := hinv.route_chain p r hlook
          exact srChain_ext _ _ hold hpn hvis_ne (Ne.symm hps)
      · rw [hR] at hlook ⊢
        exact hinv.route_chain p r hlook
    · intro pre q suf hsplit
      rcases hroute with hR | ⟨hR, _⟩
      · rw [hR]
        have hold := hinv.vis_chain pre q suf hsplit
        have hq_ne : q ≠ nb := by
          apply hvis_ne q
          rw [hsplit]
          exact List.mem_append_right _ (List.mem_cons_self _ _)
        have hsuf_ne : ∀ y ∈ suf, y ≠ nb := by
          intro y hy
          apply hvis_ne y
          rw [hsplit]
          exact List.mem_append_right _ (List.mem_cons_of_mem _ hy)
        exact srChain_ext _ _ hold hq_ne hsuf_ne (Ne.symm hps)
      · rw [hR]
        exact hinv.vis_chain pre q suf hsplit
    · exact Or.inl hs_vis

theorem srRelax_heap_len (curr : Pos) (acc : Nat × SRState) (nb : Pos) :
    (srRelax curr acc nb).2.heap.length ≤ acc.2.heap.length + 1 := by
  unfold srRelax
  split
  · omega
  · simp

theorem srFoldl_heap_le (curr : Pos) :
    ∀ (l : List Pos) (acc : Nat × SRState),
      ((l.foldl (srRelax curr) acc).2.heap.length ≤ acc.2.heap.length + l.length)
  | [], acc => by simp
  | nb :: l, acc => by
    have h1 := srFoldl_heap_le curr l (srRelax curr acc nb)
    have h2 := srRelax_heap_len curr acc nb
    simp only [List.foldl_cons, List.length_cons]
    omega

theorem srExpand_inv {g : Grid} {s : Pos} {st : SRState} (hinv : SRInv g s st)
    {len : Nat} {curr : Pos} {rest : List (Nat × Pos)}
    (hpop : popMin st.heap = some ((len, curr), rest)) (hncv : curr ∉ st.visited) :
    SRInv g s ((srFindNeighbors g curr).foldl (srRelax curr)
      (len, { heap := rest, visited := curr :: st.visited, route := st.route })).2 ∧
    ((srFindNeighbors g curr).foldl (srRelax curr)
      (len, { heap := rest, visited := curr :: st.visited
              route := st.route })).2.visited = curr :: st.visited := by
  have hmem := (popMin_spec hpop).1
  have hcells := hinv.heap_cells _ hmem
  have hreach := hinv.heap_reach _ hmem
  have hsub := popMin_rest_sub hpop
  have hroute_curr := hinv.heap_route _ hmem
  have hstart1 : s ∈ curr :: st.visited := by
    rcases hinv.start_mem with h | h
    · exact List.mem_cons_of_mem _ h
    · rw [h] at hpop
      have : ((len, curr), rest) = ((1, s), ([] : List (Nat × Pos))) := by
        have hpm : popMin (srInit s).heap = some ((1, s), []) := by
          show some (selMin (1, s) [],
            ([(1, s)] : List (Nat × Pos)).erase (selMin (1, s) [])) = _
          rw [show selMin (1, s) ([] : List (Nat × Pos)) = (1, s) from rfl]
          rw [List.erase_cons_head]
        rw [hpm] at hpop
        exact (Option.some.inj hpop).symm
      have hcs : curr = s := congrArg (fun x => x.1.2) this
      rw [hcs]
      exact List.mem_cons_self _ _
  have hinv1 : SRInv g s
      { heap := rest, visited := curr :: st.visited, route := st.route } := by
    refine ⟨?_, ?_, ?_, ?_, ?_, ?_, ?_, ?_, ?_, ?_, ?_, ?_⟩
    · intro en hen; exact hinv.heap_cells en (hsub hen)
    · intro en hen; exact hinv.heap_route en (hsub hen)
    · intro en hen; exact hinv.heap_reach en (hsub hen)
    · intro p hp
      rcases List.mem_cons.mp hp with rfl | hp'
      · exact hcells
      · exact hinv.vis_cells p hp'
    · intro p hp
      rcases List.mem_cons.mp hp with rfl | hp'
      · exact hreach
      · exact hinv.vis_reach p hp'
    · exact hinv.route_start
    · exact hinv.route_shape
    · intro p v q hlook
      obtain ⟨h1, h2, h3, h4⟩ := hinv.route_pred p v q hlook
      exact ⟨List.mem_cons_of_mem _ h1, h2, h3, h4⟩
    · exact hinv.route_reach
    · intro p r hlook
      exact srChain_cons curr (hinv.route_chain p r hlook)
    · intro pre q suf hsplit
      cases pre with
      | nil =>
        have hq : q = curr := by
          have := congrArg (fun l : List Pos => l.head?) hsplit
          simpa using this.symm
        have hsuf : suf = st.visited := by
          have := congrArg (fun l : List Pos => l.tail) hsplit
          simpa using this.symm
        rw [hq, hsuf]
        obtain ⟨r0, h0⟩ := hroute_curr
        exact hinv.route_chain curr r0 h0
      | cons a pre' =>
        have hsplit' : st.visited = pre' ++ q :: suf := by
          have := congrArg (fun l : List Pos => l.tail) hsplit
          simpa using this
        exact hinv.vis_chain pre' q suf hsplit'
    · exact Or.inl hstart1
  exact foldl_inv
    (fun acc : Nat × SRState =>
      SRInv g s acc.2 ∧ acc.2.visited = curr :: st.visited)
    (fun nb : Pos => nb ∈ srFindNeighbors g curr)
    (fun nb hnb => hnb)
    (fun acc nb hacc hq => by
      have hcv : curr ∈ acc.2.visited := by
        rw [hacc.2]
        exact List.mem_cons_self _ _
      obtain ⟨h1, h2⟩ := srRelax_inv hacc.1 hcv hreach nb hq
      exact ⟨h1, by rw [h2, hacc.2]⟩)
    ⟨hinv1, rfl⟩

theorem srStep_empty_eq {g : Grid} {e : Pos} {st : SRState}
    (hpop : popMin st.heap = none) : srStep g e st = .ret .noPath := by
  unfold srStep
  rw [hpop]

theorem srStep_pop_eq {g : Grid} {e : Pos} {st : SRState} {len : Nat}
    {curr : Pos} {rest : List (Nat × Pos)}
    (hpop : popMin st.heap = some ((len, curr), rest)) :
    srStep g e st =
      if curr = e then
        match srWalk st.route (st.visited.length + 1) (some e) 0 with
        | none => .stuck
        | some n => .ret (.found n)
      else if curr ∈ st.visited then .next { st with heap := rest }
      else
        .next ((srFindNeighbors g curr).foldl (srRelax curr)
          (len, { heap := rest, visited := curr :: st.visited
                  route := st.route })).2 := by
  unfold srStep
  rw [hpop]

theorem srStep_no_stuck {g : Grid} {s e : Pos} {st : SRState}
    (hinv : SRInv g s st) : srStep g e st ≠ .stuck := by
  intro h
  cases hpop : popMin st.heap with
  | none => rw [srStep_empty_eq hpop] at h; cases h
  | some pr =>
    obtain ⟨⟨len, curr⟩, rest⟩ := pr
    rw [srStep_pop_eq hpop] at h
    by_cases hce : curr = e
    · rw [if_pos hce] at h
      obtain ⟨r0, h0⟩ := hinv.heap_route _ (popMin_spec hpop).1
      have hchain := hinv.route_chain _ r0 h0
      have hwalk := srChain_walk hchain (st.visited.length + 1) 0 (by omega)
      subst hce
      cases hw : srWalk st.route (st.visited.length + 1) (some curr) 0 with
      | none => rw [hw] at hwalk; cases hwalk
      | some n => rw [hw] at h; cases h
    · rw [if_neg hce] at h
      by_cases hv : curr ∈ st.visited
      · rw [if_pos hv] at h; cases h
      · rw [if_neg hv] at h; cases h

theorem srStep_ret_char {g : Grid} {s e : Pos} {st : SRState} {r : SRResult}
    (hinv : SRInv g s st) (h : srStep g e st = .ret r) :
    r = .noPath ∨ (∃ n, r = .found n) ∧ Reaches g s e := by
  cases hpop : popMin st.heap with
  | none =>
    rw [srStep_empty_eq hpop] at h
    cases h
    exact Or.inl rfl
  | some pr =>
    obtain ⟨⟨len, curr⟩, rest⟩ := pr
    rw [srStep_pop_eq hpop] at h
    by_cases hce : curr = e
    · rw [if_pos hce] at h
      right
      have hreach : Reaches g s e := hce ▸ hinv.heap_reach _ (popMin_spec hpop).1
      cases hw : srWalk st.route (st.visited.length + 1) (some e) 0 with
      | none => rw [hw] at h; cases h
      | some n =>
        rw [hw] at h
        cases h
        exact ⟨⟨n, rfl⟩, hreach⟩
    · rw [if_neg hce] at h
      by_cases hv : curr ∈ st.visited
      · rw [if_pos hv] at h; cases h
      · rw [if_neg hv] at h; cases h

theorem srStep_next {g : Grid} {s e : Pos} {st st' : SRState} (hinv : SRInv g s st)
    (h : srStep g e st = .next st') :
    SRInv g s st' ∧ srMeasure g st' < srMeasure g st := by
  cases hpop : popMin st.heap with
  | none => rw [srStep_empty_eq hpop] at h; cases h
  | some pr =>
    obtain ⟨⟨len, curr⟩, rest⟩ := pr
    rw [srStep_pop_eq hpop] at h
    have hlen := popMin_rest_len hpop
    by_cases hce : curr = e
    · rw [if_pos hce] at h
      cases hw : srWalk st.route (st.visited.length + 1) (some e) 0 with
      | none => rw [hw] at h; cases h
      | some n => rw [hw] at h; cases h
    · rw [if_neg hce] at h
      by_cases hv : curr ∈ st.visited
      · rw [if_pos hv] at h
        cases h
        constructor
        · refine ⟨?_, ?_, ?_, hinv.vis_cells, hinv.vis_reach, hinv.route_start,
            hinv.route_shape, hinv.route_pred, hinv.route_reach,
            hinv.route_chain, hinv.vis_chain, ?_⟩
          · intro en hen; exact hinv.heap_cells en (popMin_rest_sub hpop hen)
          · intro en hen; exact hinv.heap_route en (popMin_rest_sub hpop hen)
          · intro en hen; exact hinv.heap_reach en (popMin_rest_sub hpop hen)
          · left
            rcases hinv.start_mem with hs | hs
            · exact hs
            · rw [hs] at hv
              simp [srInit] at hv
        · show rest.length + 5 * unvisCount g st.visited <
            st.heap.length + 5 * unvisCount g st.visited
          omega
      · rw [if_neg hv] at h
        cases h
        obtain ⟨hinv', hvis'⟩ := srExpand_inv hinv hpop hv
        refine ⟨hinv', ?_⟩
        have hheap' := srFoldl_heap_le curr (srFindNeighbors g curr)
          (len, { heap := rest, visited := curr :: st.visited
                  route := st.route })
        have hnb_le := srFindNeighbors_len g curr
        have hcells := hinv.heap_cells _ (popMin_spec hpop).1
        have huv : unvisCount g (curr :: st.visited) < unvisCount g st.visited :=
          unvisCount_lt hcells.1 hv
        unfold srMeasure
        rw [hvis']
        simp only at hheap' ⊢
        omega

theorem srLoop_run {g : Grid} {s e : Pos} :
    ∀ (fuel : Nat) (st : SRState), SRInv g s st → srMeasure g st < fuel →
      ∃ r, srLoop g e fuel st = some r ∧
        (r = .noPath ∨ ((∃ n, r = .found n) ∧ Reaches g s e)) := by
  intro fuel
  induction fuel with
  | zero => intro st _ h; omega
  | succ f ih =>
    intro st hinv hm
    cases hstep : srStep g e st with
    | stuck => exact absurd hstep (srStep_no_stuck hinv)
    | ret r =>
      refine ⟨r, ?_, srStep_ret_char hinv hstep⟩
      unfold srLoop
      rw [hstep]
    | next st' =>
      obtain ⟨hinv', hm'⟩ := srStep_next hinv hstep
      obtain ⟨r, hrun, hchar⟩ := ih st' hinv' (by omega)
      refine ⟨r, ?_, hchar⟩
      unfold srLoop
      rw [hstep]
      exact hrun

theorem srInv_init {g : Grid} {s : Pos} (hin : inGrid g s) (hop : openCell g s) :
    SRInv g s (srInit s) := by
  have hroute : (srInit s).route = [(s, (1, none))] := rfl
  have hvis : (srInit s).visited = [] := rfl
  refine ⟨?_, ?_, ?_, ?_, ?_, ?_, ?_, ?_, ?_, ?_, ?_, ?_⟩
  · intro en hen
    rcases List.mem_cons.mp hen with rfl | hen'
    · exact ⟨hin, hop⟩
    · simp at hen'
  · intro en hen
    rcases List.mem_cons.mp hen with rfl | hen'
    · exact ⟨(1, none), lookup_cons_self _ _ _⟩
    · simp at hen'
  · intro en hen
    rcases List.mem_cons.mp hen with rfl | hen'
    · exact Relation.ReflTransGen.refl
    · simp at hen'
  · intro p hp
    simp [srInit] at hp
  · intro p hp
    simp [srInit] at hp
  · refine ⟨1, ?_⟩
    rw [hroute]
    exact lookup_cons_self _ _ _
  · intro p r hp hlook
    rw [hroute, lookup_cons_ne _ _ hp] at hlook
    cases hlook
  · intro p v q hlook
    rw [hroute] at hlook
    by_cases hp : p = s
    · subst hp
      rw [lookup_cons_self] at hlook
      have := congrArg (fun pr : Nat × Option Pos => pr.2) (Option.some.inj hlook)
      simp at this
    · rw [lookup_cons_ne _ _ hp] at hlook
      cases hlook
  · intro p r hlook
    by_cases hp : p = s
    · subst hp
      exact Relation.ReflTransGen.refl
    · rw [hroute, lookup_cons_ne _ _ hp] at hlook
      cases hlook
  · intro p r hlook
    by_cases hp : p = s
    · subst hp
      refine SRChain.base _ 1 ?_
      rw [hroute]
      exact lookup_cons_self _ _ _
    · rw [hroute, lookup_cons_ne _ _ hp] at hlook
      cases hlook
  · intro pre q suf hsplit
    rw [hvis] at hsplit
    have : ([] : List Pos) ≠ pre ++ q :: suf := by
      cases pre <;> simp
    exact absurd hsplit this
  · exact Or.inr rfl

theorem srMeasure_init {g : Grid} (s : Pos) :
    srMeasure g (srInit s) < fuelBound g := by
  have hle := unvisCount_le (g := g) ([] : List Pos)
  show 1 + 5 * unvisCount g [] < 5 * g.length * g.length + 10
  rw [mul_assoc]
  omega

theorem srIter_inv {g : Grid} {s e : Pos} :
    ∀ (i : Nat) {st st' : SRState}, SRInv g s st →
      srIter g e i st = some st' → SRInv g s st' := by
  intro i
  induction i with
  | zero =>
    intro st st' hinv h
    cases h
    exact hinv
  | succ n ih =>
    intro st st' hinv h
    unfold srIter at h
    cases hstep : srStep g e st with
    | stuck => rw [hstep] at h; cases h
    | ret r => rw [hstep] at h; cases h
    | next st1 =>
      rw [hstep] at h
      exact ih (srStep_next hinv hstep).1 h

theorem mtRelax_vis {curr : Pos} {t : Nat} {acc : MTState} {nb : Pos × Bool}
    (hv : nb.1 ∈ acc.visited) : mtRelax curr t acc nb = acc := by
  unfold mtRelax
  rw [if_pos hv]

theorem mtFoldWrites {curr : Pos} {t : Nat}
    {rt0 : List (Pos × Option (Nat × Pos))} {vis0 : List Pos} :
    ∀ (l : List (Pos × Bool)) (acc : MTState), acc.visited = vis0 →
      (∀ p, List.lookup p acc.route ≠ List.lookup p rt0 →
        p ∉ vis0 ∧ ∃ v q, List.lookup p acc.route = some (some (v, q))) →
      (l.foldl (mtRelax curr t) acc).visited = vis0 ∧
      ∀ p, List.lookup p (l.foldl (mtRelax curr t) acc).route ≠
          List.lookup p rt0 →
        p ∉ vis0 ∧ ∃ v q,
          List.lookup p (l.foldl (mtRelax curr t) acc).route = some (some (v, q))
  | [], acc, hv, hw => ⟨hv, hw⟩
  | nb :: l, acc, hv, hw => by
    simp only [List.foldl_cons]
    apply mtFoldWrites l
    · rw [mtRelax_visited]
      exact hv
    · intro p hne
      by_cases hvb : nb.1 ∈ acc.visited
      · rw [mtRelax_vis hvb] at hne ⊢
        exact hw p hne
      · rw [mtRelax_not_vis hvb] at hne ⊢
        show p ∉ vis0 ∧ _
        rcases mtNewRoute_cases curr t acc nb with hR | ⟨hR, _⟩
        · rw [hR] at hne ⊢
          by_cases hpn : p = nb.1
          · subst p
            exact ⟨hv ▸ hvb, _, curr, lookup_cons_self _ _ _⟩
          · rw [lookup_cons_ne _ _ hpn] at hne ⊢
            exact hw p hne
        · rw [hR] at hne ⊢
          exact hw p hne

theorem mtStepWrites {g : Grid} {s : Pos} {st st' : MTState}
    (hinv : MTInv g s st) (h : mtStep g s st = .next st') :
    ∀ p, List.lookup p st'.route ≠ List.lookup p st.route →
      p ∉ st'.visited ∧
        ∃ v q, List.lookup p st'.route = some (some (v, q)) ∧
          q ∈ st'.visited ∧ Adjacent q p ∧ inGrid g q ∧ openCell g q := by
  have hinv' := (mtStep_next hinv h).1
  cases hpop : popMin st.heap with
  | none => rw [mtStep_empty_eq hpop] at h; cases h
  | some pr =>
    obtain ⟨⟨t, curr⟩, rest⟩ := pr
    rw [mtStep_pop_eq hpop] at h
    by_cases hv : curr ∈ st.visited
    · rw [if_pos hv] at h
      cases h
      intro p hne
      exact absurd rfl hne
    · rw [if_neg hv] at h
      cases hlook : List.lookup curr st.route with
      | none => rw [hlook] at h; cases h
      | some prev =>
        rw [hlook] at h
        cases h
        obtain ⟨hfv, hfw⟩ := mtFoldWrites (mtFindNeighbors g s curr prev)
          { heap := rest, visited := curr :: st.visited
            route := st.route, tc := st.tc }
          rfl (fun p hne => absurd rfl hne)
        intro p hne
        obtain ⟨hpv, v, q, hentry⟩ := hfw p hne
        obtain ⟨hqvis, hadj, _, _⟩ := hinv'.route_pred p v q hentry
        have hcells := hinv'.vis_cells q hqvis
        rw [hfv]
        exact ⟨hpv, v, q, hentry, hfv ▸ hqvis, hadj, hcells.1, hcells.2⟩

theorem srFoldWrites {curr : Pos}
    {rt0 : List (Pos × (Nat × Option Pos))} {vis0 : List Pos} :
    ∀ (l : List Pos) (acc : Nat × SRState), acc.2.visited = vis0 →
      (∀ p, List.lookup p acc.2.route ≠ List.lookup p rt0 →
        p ∉ vis0 ∧ ∃ v q, List.lookup p acc.2.route = some (v, some q)) →
      (l.foldl (srRelax curr) acc).2.visited = vis0 ∧
      ∀ p, List.lookup p (l.foldl (srRelax curr) acc).2.route ≠
          List.lookup p rt0 →
        p ∉ vis0 ∧ ∃ v q,
          List.lookup p (l.foldl (srRelax curr) acc).2.route = some (v, some q)
  | [], acc, hv, hw => ⟨hv, hw⟩
  | nb :: l, acc, hv, hw => by
    simp only [List.foldl_cons]
    apply srFoldWrites l
    · by_cases hvb : nb ∈ acc.2.visited
      · rw [srRelax_vis hvb]
        exact hv
      · rw [srRelax_not_vis hvb]
        exact hv
    · intro p hne
      by_cases hvb : nb ∈ acc.2.visited
      · rw [srRelax_vis hvb] at hne ⊢
        exact hw p hne
      · rw [srRelax_not_vis hvb] at hne ⊢
        show p ∉ vis0 ∧ _
        rcases srNewRoute_cases curr (acc.1 + 1) acc.2 nb with hR | ⟨hR, _⟩
        · rw [hR] at hne ⊢
          by_cases hpn : p = nb
          · subst p
            exact ⟨hv ▸ hvb, _, curr, lookup_cons_self _ _ _⟩
          · rw [lookup_cons_ne _ _ hpn] at hne ⊢
            exact hw p hne
        · rw [hR] at hne ⊢
          exact hw p hne

theorem srStepWrites {g : Grid} {s e : Pos} {st st' : SRState}
    (hinv : SRInv g s st) (h : srStep g e st = .next st') :
    ∀ p, List.lookup p st'.route ≠ List.lookup p st.route →
      p ∉ st'.visited ∧
        ∃ v q, List.lookup p st'.route = some (v, some q) ∧
          q ∈ st'.visited ∧ Adjacent q p ∧ inGrid g q ∧ openCell g q := by
  have hinv' := (srStep_next hinv h).1
  cases hpop : popMin st.heap with
  | none => rw [srStep_empty_eq hpop] at h; cases h
  | some pr =>
    obtain ⟨⟨len, curr⟩, rest⟩ := pr
    rw [srStep_pop_eq hpop] at h
    by_cases hce : curr = e
    · rw [if_pos hce] at h
      cases hw : srWalk st.route (st.visited.length + 1) (some e) 0 with
      | none => rw [hw] at h; cases h
      | some n => rw [hw] at h; cases h
    · rw [if_neg hce] at h
      by_cases hv : curr ∈ st.visited
      · rw [if_pos hv] at h
        cases h
        intro p hne
        exact absurd rfl hne
      · rw [if_neg hv] at h
        cases h
        obtain ⟨hfv, hfw⟩ := srFoldWrites (srFindNeighbors g curr)
          (len, { heap := rest, visited := curr :: st.visited
                  route := st.route })
          rfl (fun p hne => absurd rfl hne)
        intro p hne
        obtain ⟨hpv, v, q, hentry⟩ := hfw p hne
        obtain ⟨hqvis, hadj, _, _⟩ := hinv'.route_pred p v q hentry
        have hcells := hinv'.vis_cells q hqvis
        rw [hfv]
        exact ⟨hpv, v, q, hentry, hfv ▸ hqvis, hadj, hcells.1, hcells.2⟩

/-! ### The zero-turn ray argument for `turn_count` monotonicity

`turn_count` values are only ever overwritten through `min` except when the
recorded value is `0` (falsy in Python).  The lemmas below show the rewrite in
that case is again `0`: a cell recorded at `0` lies on a straight ray of open
cells from the start, its popped frontier priority is forced to `0` by heap
minimality, and a zero-priority expansion writes `0` to exactly the two cells
adjacent to the tip along the ray — one of which is already visited. -/

theorem offsets_mem_elim {d : Int × Int} (hd : d ∈ offsets) :
    d = (0, 1) ∨ d = (-1, 0) ∨ d = (0, -1) ∨ d = (1, 0) := by
  simpa [offsets] using hd

theorem offsets_comp {d : Int × Int} (hd : d ∈ offsets) :
    (d.1 = 0 ∧ d.2 = 1) ∨ (d.1 = -1 ∧ d.2 = 0) ∨
      (d.1 = 0 ∧ d.2 = -1) ∨ (d.1 = 1 ∧ d.2 = 0) := by
  rcases offsets_mem_elim hd with rfl | rfl | rfl | rfl
  · exact Or.inl ⟨rfl, rfl⟩
  · exact Or.inr (Or.inl ⟨rfl, rfl⟩)
  · exact Or.inr (Or.inr (Or.inl ⟨rfl, rfl⟩))
  · exact Or.inr (Or.inr (Or.inr ⟨rfl, rfl⟩))

theorem ray_one (s : Pos) (d : Int × Int) :
    ((s.1 + d.1, s.2 + d.2) : Pos) =
      (s.1 + ((1 : Nat) : Int) * d.1, s.2 + ((1 : Nat) : Int) * d.2) := by
  norm_num

theorem rayPrev_of_ray {s : Pos} {d : Int × Int} (hd : d ∈ offsets) {k : Nat}
    (hk : 1 ≤ k) :
    rayPrev s (s.1 + (k : Int) * d.1, s.2 + (k : Int) * d.2) =
      (s.1 + (k : Int) * d.1 - d.1, s.2 + (k : Int) * d.2 - d.2) := by
  have hkpos : (0 : Int) < (k : Int) := by exact_mod_cast hk
  rcases offsets_mem_elim hd with rfl | rfl | rfl | rfl
  · show (s.1 + (k : Int) * 0 - (s.1 + (k : Int) * 0 - s.1).sign,
      s.2 + (k : Int) * 1 - (s.2 + (k : Int) * 1 - s.2).sign) = _
    rw [show s.1 + (k : Int) * 0 - s.1 = 0 by ring,
      show s.2 + (k : Int) * 1 - s.2 = (k : Int) by ring,
      Int.sign_zero, Int.sign_eq_one_of_pos hkpos]
  · show (s.1 + (k : Int) * (-1) - (s.1 + (k : Int) * (-1) - s.1).sign,
      s.2 + (k : Int) * 0 - (s.2 + (k : Int) * 0 - s.2).sign) = _
    rw [show s.1 + (k : Int) * (-1) - s.1 = -(k : Int) by ring,
      show s.2 + (k : Int) * 0 - s.2 = 0 by ring,
      Int.sign_zero, Int.sign_eq_neg_one_of_neg (by omega)]
  · show (s.1 + (k : Int) * 0 - (s.1 + (k : Int) * 0 - s.1).sign,
      s.2 + (k : Int) * (-1) - (s.2 + (k : Int) * (-1) - s.2).sign) = _
    rw [show s.1 + (k : Int) * 0 - s.1 = 0 by ring,
      show s.2 + (k : Int) * (-1) - s.2 = -(k : Int) by ring,
      Int.sign_zero, Int.sign_eq_neg_one_of_neg (by omega)]
  · show (s.1 + (k : Int) * 1 - (s.1 + (k : Int) * 1 - s.1).sign,
      s.2 + (k : Int) * 0 - (s.2 + (k : Int) * 0 - s.2).sign) = _
    rw [show s.1 + (k : Int) * 1 - s.1 = (k : Int) by ring,
      show s.2 + (k : Int) * 0 - s.2 = 0 by ring,
      Int.sign_zero, Int.sign_eq_one_of_pos hkpos]

theorem rayPrev_one (s : Pos) {d : Int × Int} (hd : d ∈ offsets) :
    rayPrev s (s.1 + d.1, s.2 + d.2) = s := by
  rw [ray_one s d, rayPrev_of_ray hd (le_refl 1)]
  exact Prod.ext_iff.mpr
    ⟨show s.1 + ((1 : Nat) : Int) * d.1 - d.1 = s.1 by push_cast; ring,
      show s.2 + ((1 : Nat) : Int) * d.2 - d.2 = s.2 by push_cast; ring⟩

theorem ray_ne_start {s : Pos} {d : Int × Int} (hd : d ∈ offsets) {k : Nat}
    (hk : 1 ≤ k) :
    ((s.1 + (k : Int) * d.1, s.2 + (k : Int) * d.2) : Pos) ≠ s := by
  intro h
  rw [Prod.ext_iff] at h
  have h1 : s.1 + (k : Int) * d.1 = s.1 := h.1
  have h2 : s.2 + (k : Int) * d.2 = s.2 := h.2
  rcases offsets_comp hd with ⟨hc1, hc2⟩ | ⟨hc1, hc2⟩ | ⟨hc1, hc2⟩ | ⟨hc1, hc2⟩ <;>
    rw [hc1] at h1 <;> rw [hc2] at h2 <;> omega

theorem dirHorizontal_ray {s : Pos} {d : Int × Int} (hd : d ∈ offsets) {k : Nat}
    (hk : 1 ≤ k) :
    dirHorizontal (s.1 + (k : Int) * d.1, s.2 + (k : Int) * d.2)
      (some (0, ((s.1 + (k : Int) * d.1 - d.1,
        s.2 + (k : Int) * d.2 - d.2) : Pos))) ↔ d.1 = 0 := by
  show (((s.1 + (k : Int) * d.1, s.2 + (k : Int) * d.2) : Pos) ≠
      ((s.1 + (k : Int) * d.1 - d.1, s.2 + (k : Int) * d.2 - d.2) : Pos) ∧
      s.1 + (k : Int) * d.1 = s.1 + (k : Int) * d.1 - d.1) ↔ d.1 = 0
  rcases offsets_comp hd with ⟨h1, h2⟩ | ⟨h1, h2⟩ | ⟨h1, h2⟩ | ⟨h1, h2⟩ <;>
    rw [h1, h2]
  · refine iff_of_true ⟨?_, by omega⟩ rfl
    intro heq
    rw [Prod.ext_iff] at heq
    have hsnd : s.2 + (k : Int) * 1 = s.2 + (k : Int) * 1 - 1 := heq.2
    omega
  · refine iff_of_false ?_ (by omega)
    intro hc
    exact absurd hc.2 (by omega)
  · refine iff_of_true ⟨?_, by omega⟩ rfl
    intro heq
    rw [Prod.ext_iff] at heq
    have hsnd : s.2 + (k : Int) * (-1) = s.2 + (k : Int) * (-1) - (-1) := heq.2
    omega
  · refine iff_of_false ?_ (by omega)
    intro hc
    exact absurd hc.2 (by omega)

theorem ray_no_turn {s : Pos} {d : Int × Int} (hd : d ∈ offsets) {k : Nat}
    (hk : 1 ≤ k) :
    mtIsTurn s (s.1 + (k : Int) * d.1, s.2 + (k : Int) * d.2)
      (some (0, rayPrev s (s.1 + (k : Int) * d.1, s.2 + (k : Int) * d.2))) d =
      false := by
  rw [rayPrev_of_ray hd hk]
  unfold mtIsTurn
  rw [if_neg (ray_ne_start hd hk), decide_eq_false_iff_not, not_not,
    dirHorizontal_ray hd hk]

theorem turn_parallel {s : Pos} {dc e : Int × Int} (hdc : dc ∈ offsets)
    (he : e ∈ offsets) {k : Nat} (hk : 1 ≤ k)
    (h : mtIsTurn s (s.1 + (k : Int) * dc.1, s.2 + (k : Int) * dc.2)
      (some (0, rayPrev s (s.1 + (k : Int) * dc.1, s.2 + (k : Int) * dc.2)))
      e = false) :
    e = dc ∨ e = (-dc.1, -dc.2) := by
  rw [rayPrev_of_ray hdc hk] at h
  unfold mtIsTurn at h
  rw [if_neg (ray_ne_start hdc hk), decide_eq_false_iff_not, not_not,
    dirHorizontal_ray hdc hk] at h
  rcases offsets_comp hdc with ⟨h1, h2⟩ | ⟨h1, h2⟩ | ⟨h1, h2⟩ | ⟨h1, h2⟩ <;>
    rcases offsets_comp he with ⟨h3, h4⟩ | ⟨h3, h4⟩ | ⟨h3, h4⟩ | ⟨h3, h4⟩ <;>
      first
        | (left; exact Prod.ext_iff.mpr ⟨by omega, by omega⟩)
        | (right; exact Prod.ext_iff.mpr
            ⟨show e.1 = -dc.1 by omega, show e.2 = -dc.2 by omega⟩)
        | (exfalso; omega)

theorem ray_step_ray {d e f : Int × Int} (hd : d ∈ offsets) (he : e ∈ offsets)
    (hf : f ∈ offsets) {k m : Nat} (hk : 1 ≤ k) (hm : 1 ≤ m)
    (h1 : (k : Int) * d.1 + e.1 = (m : Int) * f.1)
    (h2 : (k : Int) * d.2 + e.2 = (m : Int) * f.2) :
    e = d ∨ e = (-d.1, -d.2) := by
  rcases offsets_comp hd with ⟨a1, a2⟩ | ⟨a1, a2⟩ | ⟨a1, a2⟩ | ⟨a1, a2⟩ <;>
    rcases offsets_comp he with ⟨b1, b2⟩ | ⟨b1, b2⟩ | ⟨b1, b2⟩ | ⟨b1, b2⟩ <;>
      rcases offsets_comp hf with ⟨c1, c2⟩ | ⟨c1, c2⟩ | ⟨c1, c2⟩ | ⟨c1, c2⟩ <;>
        rw [a1, c1] at h1 <;> rw [a2, c2] at h2 <;>
          first
            | (left; exact Prod.ext_iff.mpr ⟨by omega, by omega⟩)
            | (right; exact Prod.ext_iff.mpr
                ⟨show e.1 = -d.1 by omega, show e.2 = -d.2 by omega⟩)
            | (exfalso; omega)

theorem zeroRay_base {g : Grid} {s : Pos} {d : Int × Int} (hd : d ∈ offsets)
    (hcell : inGrid g (s.1 + d.1, s.2 + d.2) ∧ openCell g (s.1 + d.1, s.2 + d.2)) :
    ZeroRay g s (s.1 + d.1, s.2 + d.2) := by
  refine ⟨d, hd, 1, le_refl 1, ray_one s d, ?_⟩
  intro j hj1 hjk
  have hj : j = 1 := le_antisymm hjk hj1
  subst hj
  rw [ray_one s d] at hcell
  exact hcell

theorem zeroRay_ext {g : Grid} {s : Pos} {d : Int × Int} (hd : d ∈ offsets)
    {k : Nat} (hk : 1 ≤ k)
    (hray : ∀ j : Nat, 1 ≤ j → j ≤ k →
      inGrid g (s.1 + (j : Int) * d.1, s.2 + (j : Int) * d.2) ∧
        openCell g (s.1 + (j : Int) * d.1, s.2 + (j : Int) * d.2))
    (hcell : inGrid g (s.1 + ((k + 1 : Nat) : Int) * d.1,
        s.2 + ((k + 1 : Nat) : Int) * d.2) ∧
      openCell g (s.1 + ((k + 1 : Nat) : Int) * d.1,
        s.2 + ((k + 1 : Nat) : Int) * d.2)) :
    ZeroRay g s (s.1 + ((k + 1 : Nat) : Int) * d.1,
      s.2 + ((k + 1 : Nat) : Int) * d.2) := by
  refine ⟨d, hd, k + 1, by omega, rfl, ?_⟩
  intro j hj1 hjk
  by_cases hj : j ≤ k
  · exact hray j hj1 hj
  · have hj2 : j = k + 1 := by omega
    subst hj2
    exact hcell

theorem filter_head_lookup (p : Pos) :
    ∀ tc : List (Pos × Nat),
      ((tc.filter fun e => p == e.1).map Prod.snd).head? = List.lookup p tc
  | [] => rfl
  | (k, v) :: l => by
    cases hb : p == k with
    | true =>
      have hfil : List.filter (fun e => p == e.1) ((k, v) :: l) =
          (k, v) :: List.filter (fun e => p == e.1) l := by
        simp [List.filter_cons, hb]
      rw [hfil, List.map_cons, List.head?_cons]
      show some v = (match p == k with | true => some v | false => List.lookup p l)
      rw [hb]
    | false =>
      have hfil : List.filter (fun e => p == e.1) ((k, v) :: l) =
          List.filter (fun e => p == e.1) l := by
        simp [List.filter_cons, hb]
      have hlk : List.lookup p ((k, v) :: l) = List.lookup p l := by
        show (match p == k with | true => some v | false => List.lookup p l) = _
        rw [hb]
      rw [hfil, hlk]
      exact filter_head_lookup p l

theorem mtRelax_cost {g : Grid} {s curr : Pos} {t : Nat}
    {prev : Option (Nat × Pos)} {acc : MTState} (hinv : MTCostInv g s acc)
    (hlow : ∀ en ∈ acc.heap, t ≤ en.1)
    (hsv : s ∈ acc.visited) (hcv : curr ∈ acc.visited)
    (hzp : t = 0 → ZeroPop g s curr prev acc.visited)
    {nb : Pos × Bool} (hnb : nb ∈ mtFindNeighbors g s curr prev) :
    MTCostInv g s (mtRelax curr t acc nb) ∧
      (∀ en ∈ (mtRelax curr t acc nb).heap, t ≤ en.1) ∧
      (mtRelax curr t acc nb).visited = acc.visited ∧
      ∀ p v, List.lookup p acc.tc = some v →
        ∃ w, List.lookup p (mtRelax curr t acc nb).tc = some w ∧ w ≤ v := by
  by_cases hv : nb.1 ∈ acc.visited
  · rw [mtRelax_vis hv]
    exact ⟨hinv, hlow, rfl, fun p v h => ⟨v, h, le_refl v⟩⟩
  · have hns : nb.1 ≠ s := fun he => hv (he ▸ hsv)
    have hnc : nb.1 ≠ curr := fun he => hv (he ▸ hcv)
    obtain ⟨d2, hd2, hcond, heq⟩ := mem_mtFindNeighbors.mp hnb
    have hnb1 : nb.1 = ((curr.1 + d2.1, curr.2 + d2.2) : Pos) := by rw [← heq]
    have hnb2 : nb.2 = mtIsTurn s curr prev d2 := by rw [← heq]
    have hcandt : mtCand t nb = t ∨ mtCand t nb = t + 1 := by
      cases hb : nb.2 with
      | false => left; unfold mtCand; rw [hb]; simp
      | true => right; unfold mtCand; rw [hb]; simp
    have hcand0 : mtCand t nb = 0 → t = 0 ∧ nb.2 = false := by
      intro hc
      cases hb : nb.2 with
      | false =>
        refine ⟨?_, rfl⟩
        have he2 : mtCand t nb = t := by unfold mtCand; rw [hb]; simp
        omega
      | true =>
        have he2 : mtCand t nb = t + 1 := by unfold mtCand; rw [hb]; simp
        omega
    have hnoturn : t = 0 → List.lookup nb.1 acc.tc = some 0 → nb.2 = false := by
      intro ht hlk0
      by_cases hcs : curr = s
      · rw [hnb2]
        unfold mtIsTurn
        rw [if_pos hcs]
      · rcases hzp ht with hcs2 | ⟨hzr, hprev, hrpv⟩
        · exact absurd hcs2 hcs
        obtain ⟨dc, hdc, k, hk, hcurr, hraycells⟩ := hzr
        obtain ⟨e2, he2, m, hm, hnbeq, hnbraycells⟩ :=
          (hinv.tc_zero nb.1 hns hlk0).1
        have hc1 : (k : Int) * dc.1 + d2.1 = (m : Int) * e2.1 := by
          have h0 : nb.1.1 = s.1 + (m : Int) * e2.1 := by rw [hnbeq]
          rw [hnb1] at h0
          have h0a : curr.1 + d2.1 = s.1 + (m : Int) * e2.1 := h0
          rw [hcurr] at h0a
          have h0b : s.1 + (k : Int) * dc.1 + d2.1 = s.1 + (m : Int) * e2.1 := h0a
          linarith
        have hc2 : (k : Int) * dc.2 + d2.2 = (m : Int) * e2.2 := by
          have h0 : nb.1.2 = s.2 + (m : Int) * e2.2 := by rw [hnbeq]
          rw [hnb1] at h0
          have h0a : curr.2 + d2.2 = s.2 + (m : Int) * e2.2 := h0
          rw [hcurr] at h0a
          have h0b : s.2 + (k : Int) * dc.2 + d2.2 = s.2 + (m : Int) * e2.2 := h0a
          linarith
        rcases ray_step_ray hdc hd2 he2 hk hm hc1 hc2 with heqd | heqd
        · rw [hnb2, hprev, hcurr, heqd]
          exact ray_no_turn hdc hk
        · exfalso
          have hnbrp : nb.1 = rayPrev s curr := by
            rw [hnb1, heqd, hcurr, rayPrev_of_ray hdc hk]
            exact Prod.ext_iff.mpr
              ⟨show s.1 + (k : Int) * dc.1 + -dc.1 =
                  s.1 + (k : Int) * dc.1 - dc.1 by ring,
                show s.2 + (k : Int) * dc.2 + -dc.2 =
                  s.2 + (k : Int) * dc.2 - dc.2 by ring⟩
          exact hv (by rw [hnbrp]; exact hrpv)
    have hA : t ≤ mtNewTC t acc nb := by
      cases hlk : List.lookup nb.1 acc.tc with
      | none =>
        have hWe : mtNewTC t acc nb = mtCand t nb := by unfold mtNewTC; rw [hlk]
        rcases hcandt with h | h <;> omega
      | some w =>
        have hWe : mtNewTC t acc nb =
            if w ≠ 0 then min w (mtCand t nb) else mtCand t nb := by
          unfold mtNewTC; rw [hlk]
        have hmem := hinv.tc_heap nb.1 w hv hlk
        have htw : t ≤ w := hlow (w, nb.1) hmem
        by_cases hw : w ≠ 0
        · rw [hWe, if_pos hw]
          rcases hcandt with h | h <;> omega
        · rw [hWe, if_neg hw]
          rcases hcandt with h | h <;> omega
    have hB : ∀ w, List.lookup nb.1 acc.tc = some w → mtNewTC t acc nb ≤ w := by
      intro w hlk
      have hWe : mtNewTC t acc nb =
          if w ≠ 0 then min w (mtCand t nb) else mtCand t nb := by
        unfold mtNewTC; rw [hlk]
      by_cases hw : w ≠ 0
      · rw [hWe, if_pos hw]
        omega
      · push_neg at hw
        subst hw
        rw [hWe, if_neg (fun hcon => hcon rfl)]
        have ht : t = 0 := by
          have hmem := hinv.tc_heap nb.1 0 hv hlk
          have htw : t ≤ 0 := hlow (0, nb.1) hmem
          omega
        have hb2 := hnoturn ht hlk
        have hce : mtCand t nb = t := by unfold mtCand; rw [hb2]; simp
        omega
    have hC : mtNewTC t acc nb = 0 → t = 0 ∧ nb.2 = false := by
      intro h0
      apply hcand0
      cases hlk : List.lookup nb.1 acc.tc with
      | none =>
        have hWe : mtNewTC t acc nb = mtCand t nb := by unfold mtNewTC; rw [hlk]
        omega
      | some w =>
        have hWe : mtNewTC t acc nb =
            if w ≠ 0 then min w (mtCand t nb) else mtCand t nb := by
          unfold mtNewTC; rw [hlk]
        by_cases hw : w ≠ 0
        · rw [hWe, if_pos hw] at h0
          omega
        · push_neg at hw
          subst hw
          rw [hWe, if_neg (fun hcon => hcon rfl)] at h0
          omega
    have hroute_ne : ∀ q, q ≠ nb.1 →
        List.lookup q (mtNewRoute curr t acc nb) = List.lookup q acc.route := by
      intro q hq
      rcases mtNewRoute_cases curr t acc nb with hR | ⟨hR, _⟩
      · rw [hR, lookup_cons_ne _ _ hq]
      · rw [hR]
    have hroute_nb :
        List.lookup nb.1 (mtNewRoute curr t acc nb) =
            some (some (mtNewTC t acc nb, curr)) ∨
          (List.lookup nb.1 (mtNewRoute curr t acc nb) =
              List.lookup nb.1 acc.route ∧
            ∃ q0, List.lookup nb.1 acc.route =
                some (some (mtNewTC t acc nb, q0)) ∧
              List.lookup nb.1 acc.tc = some (mtNewTC t acc nb)) := by
      cases hlkr : List.lookup nb.1 acc.route with
      | none =>
        left
        have hR : mtNewRoute curr t acc nb =
            (nb.1, some (mtNewTC t acc nb, curr)) :: acc.route := by
          unfold mtNewRoute; rw [hlkr]
        rw [hR, lookup_cons_self]
      | some r =>
        cases r with
        | none =>
          left
          have hR : mtNewRoute curr t acc nb =
              (nb.1, some (mtNewTC t acc nb, curr)) :: acc.route := by
            unfold mtNewRoute; rw [hlkr]
          rw [hR, lookup_cons_self]
        | some vq =>
          obtain ⟨v0, q0⟩ := vq
          have hR : mtNewRoute curr t acc nb =
              if mtNewTC t acc nb < v0 then
                (nb.1, some (mtNewTC t acc nb, curr)) :: acc.route
              else acc.route := by
            unfold mtNewRoute; rw [hlkr]
          by_cases hlt : mtNewTC t acc nb < v0
          · left
            rw [hR, if_pos hlt, lookup_cons_self]
          · right
            have htc0 := hinv.route_tc nb.1 v0 q0 hns hlkr
            have hlev := hB v0 htc0
            have hveq : v0 = mtNewTC t acc nb := by omega
            rw [hR, if_neg hlt]
            refine ⟨hlkr, q0, ?_, ?_⟩
            · rw [hveq]
            · rw [htc0, hveq]
    rw [mtRelax_not_vis hv]
    refine ⟨⟨?_, ?_, ?_, ?_, ?_, ?_, ?_, ?_, ?_⟩, ?_, rfl, ?_⟩
    · -- tc_start
      show List.lookup s ((nb.1, mtNewTC t acc nb) :: acc.tc) = some 0
      rw [lookup_cons_ne _ _ (Ne.symm hns)]
      exact hinv.tc_start
    · -- route_start
      show List.lookup s (mtNewRoute curr t acc nb) = some none
      rw [hroute_ne s (Ne.symm hns)]
      exact hinv.route_start
    · -- route_shape
      intro p r hp hl
      by_cases hpn : p = nb.1
      · subst hpn
        have hl2 : List.lookup nb.1 (mtNewRoute curr t acc nb) = some r := hl
        rcases hroute_nb with hwr | ⟨hun, q0, hold, _⟩
        · rw [hwr] at hl2
          exact ⟨mtNewTC t acc nb, curr, (Option.some.inj hl2).symm⟩
        · rw [hun, hold] at hl2
          exact ⟨mtNewTC t acc nb, q0, (Option.some.inj hl2).symm⟩
      · have hl2 : List.lookup p (mtNewRoute curr t acc nb) = some r := hl
        rw [hroute_ne p hpn] at hl2
        exact hinv.route_shape p r hp hl2
    · -- route_tc
      intro p v q hp hl
      by_cases hpn : p = nb.1
      · subst hpn
        show List.lookup nb.1 ((nb.1, mtNewTC t acc nb) :: acc.tc) = some v
        rw [lookup_cons_self]
        have hl2 : List.lookup nb.1 (mtNewRoute curr t acc nb) =
            some (some (v, q)) := hl
        rcases hroute_nb with hwr | ⟨hun, q0, hold, _⟩
        · rw [hwr] at hl2
          simp only [Option.some.injEq, Prod.mk.injEq] at hl2
          rw [hl2.1]
        · rw [hun, hold] at hl2
          simp only [Option.some.injEq, Prod.mk.injEq] at hl2
          rw [hl2.1]
      · show List.lookup p ((nb.1, mtNewTC t acc nb) :: acc.tc) = some v
        rw [lookup_cons_ne _ _ hpn]
        have hl2 : List.lookup p (mtNewRoute curr t acc nb) =
            some (some (v, q)) := hl
        rw [hroute_ne p hpn] at hl2
        exact hinv.route_tc p v q hp hl2
    · -- heap_tc
      intro en hen
      have hen2 : en ∈ (mtNewTC t acc nb, nb.1) :: acc.heap := hen
      rcases List.mem_cons.mp hen2 with rfl | htl
      · refine ⟨mtNewTC t acc nb, ?_, le_refl _⟩
        show List.lookup nb.1 ((nb.1, mtNewTC t acc nb) :: acc.tc) = _
        exact lookup_cons_self _ _ _
      · obtain ⟨w, hw, hle⟩ := hinv.heap_tc en htl
        by_cases hpn : en.2 = nb.1
        · refine ⟨mtNewTC t acc nb, ?_, ?_⟩
          · show List.lookup en.2 ((nb.1, mtNewTC t acc nb) :: acc.tc) = _
            rw [hpn, lookup_cons_self]
          · have hble := hB w (by rw [← hpn]; exact hw)
            omega
        · refine ⟨w, ?_, hle⟩
          show List.lookup en.2 ((nb.1, mtNewTC t acc nb) :: acc.tc) = some w
          rw [lookup_cons_ne _ _ hpn]
          exact hw
    · -- tc_heap
      intro p w hpv hl
      have hl2 : List.lookup p ((nb.1, mtNewTC t acc nb) :: acc.tc) = some w := hl
      have hpv2 : p ∉ acc.visited := hpv
      by_cases hpn : p = nb.1
      · subst hpn
        rw [lookup_cons_self] at hl2
        have hweq := Option.some.inj hl2
        show (w, nb.1) ∈ (mtNewTC t acc nb, nb.1) :: acc.heap
        rw [← hweq]
        exact List.mem_cons_self _ _
      · rw [lookup_cons_ne _ _ hpn] at hl2
        have hmem := hinv.tc_heap p w hpv2 hl2
        show (w, p) ∈ (mtNewTC t acc nb, nb.1) :: acc.heap
        exact List.mem_cons_of_mem _ hmem
    · -- tc_zero
      intro p hp h0
      have h02 : List.lookup p ((nb.1, mtNewTC t acc nb) :: acc.tc) = some 0 := h0
      by_cases hpn : p = nb.1
      · subst hpn
        rw [lookup_cons_self] at h02
        have hW0 : mtNewTC t acc nb = 0 := Option.some.inj h02
        obtain ⟨ht, hb2⟩ := hC hW0
        rcases hroute_nb with hwr | ⟨hun, q0, hold, htc0⟩
        · by_cases hcs : curr = s
          · have hnb1s : nb.1 = ((s.1 + d2.1, s.2 + d2.2) : Pos) := by
              rw [hnb1, hcs]
            have hconds : inGrid g (s.1 + d2.1, s.2 + d2.2) ∧
                openCell g (s.1 + d2.1, s.2 + d2.2) := by
              rw [← hcs]
              exact hcond
            have hrp : rayPrev s nb.1 = s := by
              rw [hnb1s]
              exact rayPrev_one s hd2
            refine ⟨?_, ?_, ?_⟩
            · rw [hnb1s]
              exact zeroRay_base hd2 hconds
            · show List.lookup nb.1 (mtNewRoute curr t acc nb) =
                some (some (0, rayPrev s nb.1))
              rw [hwr, hW0, hrp, hcs]
            · show rayPrev s nb.1 ∈ acc.visited
              rw [hrp]
              exact hsv
          · rcases hzp ht with hcs2 | ⟨hzr, hprev, hrpv⟩
            · exact absurd hcs2 hcs
            obtain ⟨dc, hdc, k, hk, hcurr, hraycells⟩ := hzr
            have hturnf : mtIsTurn s
                (s.1 + (k : Int) * dc.1, s.2 + (k : Int) * dc.2)
                (some (0, rayPrev s
                  (s.1 + (k : Int) * dc.1, s.2 + (k : Int) * dc.2)))
                d2 = false := by
              rw [← hcurr, ← hprev, ← hnb2]
              exact hb2
            rcases turn_parallel hdc hd2 hk hturnf with heqd | heqd
            · have hnbray : nb.1 = ((s.1 + ((k + 1 : Nat) : Int) * dc.1,
                  s.2 + ((k + 1 : Nat) : Int) * dc.2) : Pos) := by
                rw [hnb1, heqd, hcurr]
                exact Prod.ext_iff.mpr
                  ⟨show s.1 + (k : Int) * dc.1 + dc.1 =
                      s.1 + ((k + 1 : Nat) : Int) * dc.1 by push_cast; ring,
                    show s.2 + (k : Int) * dc.2 + dc.2 =
                      s.2 + ((k + 1 : Nat) : Int) * dc.2 by push_cast; ring⟩
              have hcellray : inGrid g (s.1 + ((k + 1 : Nat) : Int) * dc.1,
                  s.2 + ((k + 1 : Nat) : Int) * dc.2) ∧
                  openCell g (s.1 + ((k + 1 : Nat) : Int) * dc.1,
                    s.2 + ((k + 1 : Nat) : Int) * dc.2) := by
                have hcc := hcond
                have hpe : ((curr.1 + d2.1, curr.2 + d2.2) : Pos) =
                    (s.1 + ((k + 1 : Nat) : Int) * dc.1,
                      s.2 + ((k + 1 : Nat) : Int) * dc.2) := by
                  rw [← hnb1]
                  exact hnbray
                rw [hpe] at hcc
                exact hcc
              have hrp : rayPrev s nb.1 = curr := by
                rw [hnbray, rayPrev_of_ray hdc (show 1 ≤ k + 1 by omega), hcurr]
                exact Prod.ext_iff.mpr
                  ⟨show s.1 + ((k + 1 : Nat) : Int) * dc.1 - dc.1 =
                      s.1 + (k : Int) * dc.1 by push_cast; ring,
                    show s.2 + ((k + 1 : Nat) : Int) * dc.2 - dc.2 =
                      s.2 + (k : Int) * dc.2 by push_cast; ring⟩
              refine ⟨?_, ?_, ?_⟩
              · rw [hnbray]
                exact zeroRay_ext hdc hk hraycells hcellray
              · show List.lookup nb.1 (mtNewRoute curr t acc nb) =
                  some (some (0, rayPrev s nb.1))
                rw [hwr, hW0, hrp]
              · show rayPrev s nb.1 ∈ acc.visited
                rw [hrp]
                exact hcv
            · exfalso
              have hnbrp : nb.1 = rayPrev s curr := by
                rw [hnb1, heqd, hcurr, rayPrev_of_ray hdc hk]
                exact Prod.ext_iff.mpr
                  ⟨show s.1 + (k : Int) * dc.1 + -dc.1 =
                      s.1 + (k : Int) * dc.1 - dc.1 by ring,
                    show s.2 + (k : Int) * dc.2 + -dc.2 =
                      s.2 + (k : Int) * dc.2 - dc.2 by ring⟩
              exact hv (by rw [hnbrp]; exact hrpv)
        · rw [hW0] at htc0
          obtain ⟨hz0, hrt0, hrv0⟩ := hinv.tc_zero nb.1 hns htc0
          refine ⟨hz0, ?_, hrv0⟩
          show List.lookup nb.1 (mtNewRoute curr t acc nb) =
            some (some (0, rayPrev s nb.1))
          rw [hun]
          exact hrt0
      · rw [lookup_cons_ne _ _ hpn] at h02
        obtain ⟨hz0, hrt0, hrv0⟩ := hinv.tc_zero p hp h02
        refine ⟨hz0, ?_, hrv0⟩
        show List.lookup p (mtNewRoute curr t acc nb) =
          some (some (0, rayPrev s p))
        rw [hroute_ne p hpn]
        exact hrt0
    · -- tc_hist
      intro p
      show List.Chain' (fun a b => a ≤ b)
        ((((nb.1, mtNewTC t acc nb) :: acc.tc).filter
          fun e => p == e.1).map Prod.snd)
      cases hb : p == nb.1 with
      | true =>
        have hfil : ((nb.1, mtNewTC t acc nb) :: acc.tc).filter
            (fun e => p == e.1) =
            (nb.1, mtNewTC t acc nb) :: acc.tc.filter (fun e => p == e.1) := by
          simp [List.filter_cons, hb]
        rw [hfil, List.map_cons, List.chain'_cons']
        constructor
        · intro b hbm
          rw [filter_head_lookup p acc.tc] at hbm
          have hpeq : p = nb.1 := eq_of_beq hb
          rw [hpeq] at hbm
          exact hB b (Option.mem_def.mp hbm)
        · exact hinv.tc_hist p
      | false =>
        have hfil : ((nb.1, mtNewTC t acc nb) :: acc.tc).filter
            (fun e => p == e.1) =
            acc.tc.filter (fun e => p == e.1) := by
          simp [List.filter_cons, hb]
        rw [hfil]
        exact hinv.tc_hist p
    · -- start_mem
      exact Or.inl hsv
    · -- heap lower bound
      intro en hen
      have hen2 : en ∈ (mtNewTC t acc nb, nb.1) :: acc.heap := hen
      rcases List.mem_cons.mp hen2 with rfl | htl
      · exact hA
      · exact hlow en htl
    · -- pointwise non-increase
      intro p v hpv
      by_cases hpn : p = nb.1
      · subst hpn
        refine ⟨mtNewTC t acc nb, ?_, hB v hpv⟩
        exact lookup_cons_self _ _ _
      · refine ⟨v, ?_, le_refl v⟩
        show List.lookup p ((nb.1, mtNewTC t acc nb) :: acc.tc) = some v
        rw [lookup_cons_ne _ _ hpn]
        exact hpv

theorem mtFold_cost {g : Grid} {s curr : Pos} {t : Nat}
    {prev : Option (Nat × Pos)} {vis0 : List Pos} {tc0 : List (Pos × Nat)}
    (hsv : s ∈ vis0) (hcv : curr ∈ vis0)
    (hzp : t = 0 → ZeroPop g s curr prev vis0) :
    ∀ (l : List (Pos × Bool)) (acc : MTState),
      (∀ nb ∈ l, nb ∈ mtFindNeighbors g s curr prev) →
      MTCostInv g s acc → acc.visited = vis0 →
      (∀ en ∈ acc.heap, t ≤ en.1) →
      (∀ p v, List.lookup p tc0 = some v →
        ∃ w, List.lookup p acc.tc = some w ∧ w ≤ v) →
      MTCostInv g s (l.foldl (mtRelax curr t) acc) ∧
        ∀ p v, List.lookup p tc0 = some v →
          ∃ w, List.lookup p (l.foldl (mtRelax curr t) acc).tc = some w ∧ w ≤ v
  | [], acc, _, hinv, _, _, htc => ⟨hinv, htc⟩
  | nb :: l, acc, hl, hinv, hveq, hlow, htc => by
    simp only [List.foldl_cons]
    have hsv2 : s ∈ acc.visited := by rw [hveq]; exact hsv
    have hcv2 : curr ∈ acc.visited := by rw [hveq]; exact hcv
    have hzp2 : t = 0 → ZeroPop g s curr prev acc.visited := by
      rw [hveq]; exact hzp
    obtain ⟨hinv2, hlow2, hveq2, htc2⟩ :=
      mtRelax_cost hinv hlow hsv2 hcv2 hzp2 (hl nb (List.mem_cons_self _ _))
    refine mtFold_cost hsv hcv hzp l (mtRelax curr t acc nb)
      (fun b hb => hl b (List.mem_cons_of_mem _ hb)) hinv2
      (hveq2.trans hveq) hlow2 ?_
    intro p v h0
    obtain ⟨w, hw, hle⟩ := htc p v h0
    obtain ⟨w2, hw2, hle2⟩ := htc2 p w hw
    exact ⟨w2, hw2, le_trans hle2 hle⟩

theorem mtCostInv_init (g : Grid) (s : Pos) : MTCostInv g s (mtInit s) := by
  have htc : (mtInit s).tc = [(s, 0)] := rfl
  have hroute : (mtInit s).route = [(s, none)] := rfl
  refine ⟨?_, ?_, ?_, ?_, ?_, ?_, ?_, ?_, Or.inr rfl⟩
  · rw [htc]
    exact lookup_cons_self _ _ _
  · rw [hroute]
    exact lookup_cons_self _ _ _
  · intro p r hp hl
    rw [hroute, lookup_cons_ne _ _ hp] at hl
    cases hl
  · intro p v q hp hl
    rw [hroute, lookup_cons_ne _ _ hp] at hl
    cases hl
  · intro en hen
    have hen2 : en ∈ [((0 : Nat), s)] := hen
    rcases List.mem_cons.mp hen2 with rfl | hen3
    · exact ⟨0, lookup_cons_self _ _ _, le_refl 0⟩
    · simp at hen3
  · intro p w hpv hl
    have hl2 : List.lookup p [(s, (0 : Nat))] = some w := hl
    by_cases hp : p = s
    · subst hp
      rw [lookup_cons_self] at hl2
      have hw := Option.some.inj hl2
      show ((w, p) : Nat × Pos) ∈ [((0 : Nat), p)]
      rw [← hw]
      exact List.mem_cons_self _ _
    · rw [lookup_cons_ne _ _ hp] at hl2
      cases hl2
  · intro p hp hl
    have hl2 : List.lookup p [(s, (0 : Nat))] = some 0 := hl
    rw [lookup_cons_ne _ _ hp] at hl2
    cases hl2
  · intro p
    show List.Chain' (fun a b => a ≤ b)
      (([(s, (0 : Nat))].filter fun e => p == e.1).map Prod.snd)
    cases hb : p == s with
    | true =>
      have hfil : [(s, (0 : Nat))].filter (fun e => p == e.1) = [(s, 0)] := by
        simp [List.filter_cons, hb]
      rw [hfil]
      exact List.chain'_singleton 0
    | false =>
      have hfil : [(s, (0 : Nat))].filter (fun e => p == e.1) = [] := by
        simp [List.filter_cons, hb]
      rw [hfil]
      exact List.chain'_nil

theorem mtStep_cost {g : Grid} {s : Pos} {st st2 : MTState}
    (hinv : MTCostInv g s st) (h : mtStep g s st = .next st2) :
    MTCostInv g s st2 ∧
      ∀ p v, List.lookup p st.tc = some v →
        ∃ w, List.lookup p st2.tc = some w ∧ w ≤ v := by
  cases hpop : popMin st.heap with
  | none => rw [mtStep_empty_eq hpop] at h; cases h
  | some pr =>
    obtain ⟨⟨t, curr⟩, rest⟩ := pr
    have hmem := (popMin_spec hpop).1
    have hle := (popMin_spec hpop).2.2
    rw [mtStep_pop_eq hpop] at h
    by_cases hv : curr ∈ st.visited
    · rw [if_pos hv] at h
      cases h
      have hs_vis : s ∈ st.visited := by
        rcases hinv.start_mem with hs | hs
        · exact hs
        · rw [hs] at hv
          simp [mtInit] at hv
      refine ⟨⟨hinv.tc_start, hinv.route_start, hinv.route_shape,
        hinv.route_tc, ?_, ?_, hinv.tc_zero, hinv.tc_hist, Or.inl hs_vis⟩,
        fun p v hl => ⟨v, hl, le_refl v⟩⟩
      · intro en hen
        exact hinv.heap_tc en (popMin_rest_sub hpop hen)
      · intro p w hpv hl
        have hmem2 := hinv.tc_heap p w hpv hl
        have hne : ((w, p) : Nat × Pos) ≠ (t, curr) := by
          intro hcon
          have : p = curr := congrArg Prod.snd hcon
          exact hpv (this ▸ hv)
        exact popMin_mem_rest hpop hmem2 hne
    · rw [if_neg hv] at h
      cases hlook : List.lookup curr st.route with
      | none => rw [hlook] at h; cases h
      | some prev =>
        rw [hlook] at h
        cases h
        have hlow0 : ∀ en ∈ rest, t ≤ en.1 := by
          intro en hen
          exact entryLE_fst (hle en (popMin_rest_sub hpop hen))
        rcases hinv.start_mem with hs | hs
        · -- the start is already visited
          have hcs : curr ≠ s := fun he => hv (he ▸ hs)
          have hzp : t = 0 → ZeroPop g s curr prev (curr :: st.visited) := by
            intro ht
            subst ht
            obtain ⟨w, hwtc, hwle⟩ := hinv.heap_tc (0, curr) hmem
            have hw0 : w = 0 := by omega
            rw [hw0] at hwtc
            obtain ⟨hzr, hrt, hrv⟩ := hinv.tc_zero curr hcs hwtc
            right
            refine ⟨hzr, ?_, List.mem_cons_of_mem _ hrv⟩
            rw [hlook] at hrt
            exact Option.some.inj hrt
          have hinv0 : MTCostInv g s
              { heap := rest, visited := curr :: st.visited,
                route := st.route, tc := st.tc } := by
            refine ⟨hinv.tc_start, hinv.route_start, hinv.route_shape,
              hinv.route_tc, ?_, ?_, ?_, hinv.tc_hist,
              Or.inl (List.mem_cons_of_mem _ hs)⟩
            · intro en hen
              exact hinv.heap_tc en (popMin_rest_sub hpop hen)
            · intro p w hpv hl
              have hpv2 : p ∉ st.visited :=
                fun hcon => hpv (List.mem_cons_of_mem _ hcon)
              have hpc : p ≠ curr := fun hcon =>
                hpv (hcon ▸ List.mem_cons_self _ _)
              have hmem2 := hinv.tc_heap p w hpv2 hl
              have hne : ((w, p) : Nat × Pos) ≠ (t, curr) := by
                intro hcon
                exact hpc (congrArg Prod.snd hcon)
              exact popMin_mem_rest hpop hmem2 hne
            · intro p hp hl
              obtain ⟨hz, hrt, hrv⟩ := hinv.tc_zero p hp hl
              exact ⟨hz, hrt, List.mem_cons_of_mem _ hrv⟩
          exact mtFold_cost (List.mem_cons_of_mem _ hs)
            (List.mem_cons_self _ _) hzp
            (mtFindNeighbors g s curr prev) _ (fun b hb => hb) hinv0 rfl
            hlow0 (fun p v hl => ⟨v, hl, le_refl v⟩)
        · -- first iteration from the initial state
          have hpop0 : popMin (mtInit s).heap = some ((0, s), []) := by
            show some (selMin (0, s) [], [((0 : Nat), s)].erase (selMin (0, s) [])) = _
            rw [show selMin (0, s) [] = ((0 : Nat), s) from rfl,
              List.erase_cons_head]
          rw [hs, hpop0] at hpop
          simp only [Option.some.injEq, Prod.mk.injEq] at hpop
          obtain ⟨⟨ht0, hcurr0⟩, hrest0⟩ := hpop
          subst ht0
          subst hcurr0
          subst hrest0
          subst hs
          have hzp : (0 : Nat) = 0 → ZeroPop g s s prev (s :: (mtInit s).visited) := by
            intro _
            left
            rfl
          have hinv0 : MTCostInv g s
              { heap := [], visited := s :: (mtInit s).visited,
                route := (mtInit s).route, tc := (mtInit s).tc } := by
            refine ⟨hinv.tc_start, hinv.route_start, hinv.route_shape,
              hinv.route_tc, ?_, ?_, ?_, hinv.tc_hist,
              Or.inl (List.mem_cons_self _ _)⟩
            · intro en hen
              simp at hen
            · intro p w hpv hl
              have hl2 : List.lookup p [(s, (0 : Nat))] = some w := hl
              by_cases hp : p = s
              · exact absurd (hp ▸ List.mem_cons_self s []) hpv
              · rw [lookup_cons_ne _ _ hp] at hl2
                cases hl2
            · intro p hp hl
              have hl2 : List.lookup p [(s, (0 : Nat))] = some 0 := hl
              rw [lookup_cons_ne _ _ hp] at hl2
              cases hl2
          exact mtFold_cost (List.mem_cons_self _ _)
            (List.mem_cons_self _ _) hzp
            (mtFindNeighbors g s s prev) _ (fun b hb => hb) hinv0 rfl
            (fun en hen => by simp at hen)
            (fun p v hl => ⟨v, hl, le_refl v⟩)

theorem mtIter_cost {g : Grid} {s : Pos} :
    ∀ (i : Nat) {st st2 : MTState}, MTCostInv g s st →
      mtIter g s i st = some st2 →
      MTCostInv g s st2 ∧
        ∀ p v, List.lookup p st.tc = some v →
          ∃ w, List.lookup p st2.tc = some w ∧ w ≤ v := by
  intro i
  induction i with
  | zero =>
    intro st st2 hinv h
    cases h
    exact ⟨hinv, fun p v hl => ⟨v, hl, le_refl v⟩⟩
  | succ n ih =>
    intro st st2 hinv h
    unfold mtIter at h
    cases hstep : mtStep g s st with
    | stuck => rw [hstep] at h; cases h
    | ret fin => rw [hstep] at h; cases h
    | next st1 =>
      rw [hstep] at h
      obtain ⟨hinv1, hd1⟩ := mtStep_cost hinv hstep
      obtain ⟨hinv2, hd2⟩ := ih hinv1 h
      refine ⟨hinv2, ?_⟩
      intro p v hl
      obtain ⟨w, hw, hle⟩ := hd1 p v hl
      obtain ⟨w2, hw2, hle2⟩ := hd2 p w hw
      exact ⟨w2, hw2, le_trans hle2 hle⟩

theorem mtIter_succ (g : Grid) (s : Pos) (i : Nat) (st : MTState) :
    mtIter g s (i + 1) st =
      match mtStep g s st with
      | .next st2 => mtIter g s i st2
      | _ => none := rfl

theorem mtIter_add (g : Grid) (s : Pos) :
    ∀ (i j : Nat) (st : MTState),
      mtIter g s (i + j) st = (mtIter g s i st).bind (mtIter g s j) := by
  intro i
  induction i with
  | zero =>
    intro j st
    rw [Nat.zero_add]
    rfl
  | succ n ih =>
    intro j st
    have hn : n + 1 + j = (n + j) + 1 := by omega
    rw [hn, mtIter_succ g s (n + j) st, mtIter_succ g s n st]
    cases hstep : mtStep g s st with
    | stuck => rfl
    | ret fin => rfl
    | next st1 => exact ih j st1

/-! ### Search-level consequences -/

theorem mtSearch_run {g : Grid} {s e : Pos} (hin : inGrid g s)
    (hop : openCell g s) :
    ∃ fin, MTInv g s fin ∧
      mtSearch g s e = mtMakePath e fin.route (fin.visited.length + 1) := by
  obtain ⟨fin, hrun, hfin⟩ := mtLoop_run (fuelBound g) (mtInit s)
    (mtInv_init hin hop) (mtMeasure_init s)
  refine ⟨fin, hfin, ?_⟩
  unfold mtSearch
  rw [hrun]
  rfl

/-! ## Claims -/

/-- C1: the claim that `ShortestRoute.search()` always returns the true
graph distance is false.  On `gridA` with start `(1, 1)` and end `(2, 1)`
the two cells are adjacent — `[(1, 1), (2, 1)]` is a valid path of 2 cells
and the independent breadth-first search reports distance 2 — yet the search
returns 4, because `length += 1` accumulates across the neighbor loop
instead of assigning `current length + 1` to each neighbor. -/
theorem c1_shortest_not_graph_distance :
    srSearch gridA (1, 1) (2, 1) = some (SRResult.found 4) ∧
    bfsDist gridA (1, 1) (2, 1) = some (some 2) ∧
    ValidPath gridA (1, 1) (2, 1) [(1, 1), (2, 1)] ∧
    SRResult.found 4 ≠ SRResult.found 2 := by
  refine ⟨by decide, by decide, by decide, by decide⟩

/-- C2: the claim that `MinTurns.search()` never reports more turns than
some valid path is false.  On `gridB` with start `(1, 0)` and end `(2, 2)`
the search returns 2 turns, but the valid path
`[(1, 0), (2, 0), (2, 1), (2, 2)]` has only 1 turn. -/
theorem c2_minturns_not_minimal :
    mtSearch gridB (1, 0) (2, 2) = some (MTResult.found 2 4) ∧
    ValidPath gridB (1, 0) (2, 2) [(1, 0), (2, 0), (2, 1), (2, 2)] ∧
    pathTurns [((1 : Int), (0 : Int)), (2, 0), (2, 1), (2, 2)] = 1 ∧
    1 < 2 := by
  refine ⟨by decide, by decide, by decide, by decide⟩

/-- C3: the claim that every open unvisited neighbor of an expansion popped
with length `L` is assigned candidate length exactly `L + 1` is false.  On
`gridA` from start `(1, 1)` the first pop has length 1, and after that single
expansion the four neighbors' route entries record lengths 2, 3, 4 and 5 —
the east neighbor `(1, 2)` gets 2 but the south neighbor `(2, 1)` gets 5. -/
theorem c3_neighbor_lengths_accumulate :
    popMin (srInit (1, 1)).heap = some ((1, ((1 : Int), (1 : Int))), []) ∧
    ((srIter gridA (2, 1) 1 (srInit (1, 1))).map fun st =>
      (List.lookup ((1 : Int), (2 : Int)) st.route,
       List.lookup ((2 : Int), (1 : Int)) st.route)) =
      some (some (2, some (1, 1)), some (5, some (1, 1))) ∧
    (5 : Nat) ≠ 1 + 1 := by
  refine ⟨by decide, by rfl, by decide⟩

/-- C4: throughout a `MinTurns.search` run the `turn_count` dictionary is
mutated downward only.  Writes to the dictionary prepend, so `st.tc` records
the full write history of each cell, newest first: part one states that the
successive values ever written for any cell form a non-increasing history
(no write stores a strictly greater value than the previous write for that
cell), and part two states that across loop iterations the looked-up value
of any recorded cell never increases. -/
theorem c4_turn_count_downward_only (g : Grid) (s : Pos) :
    ∀ (i : Nat) (st : MTState), mtIter g s i (mtInit s) = some st →
      (∀ p : Pos, List.Chain' (fun a b => a ≤ b)
        ((st.tc.filter fun e => p == e.1).map Prod.snd)) ∧
      ∀ (j : Nat) (st2 : MTState), i ≤ j → mtIter g s j (mtInit s) = some st2 →
        ∀ (p : Pos) (v : Nat), List.lookup p st.tc = some v →
          ∃ w, List.lookup p st2.tc = some w ∧ w ≤ v := by
  intro i st hi
  have h1 := mtIter_cost i (mtCostInv_init g s) hi
  refine ⟨h1.1.tc_hist, ?_⟩
  intro j st2 hij hj
  obtain ⟨m, rfl⟩ : ∃ m, j = i + m := ⟨j - i, by omega⟩
  rw [mtIter_add, hi] at hj
  have hj2 : mtIter g s m st = some st2 := hj
  exact (mtIter_cost m h1.1 hj2).2

theorem c4_turn_count_downward_only_witness :
    ∃ w, List.lookup ((1 : Int), (1 : Int))
      (MTState.mk [(0, (2, 1)), (0, (1, 0)), (0, (0, 1)), (0, (1, 2))]
        [((1 : Int), (1 : Int))]
        [(((2 : Int), (1 : Int)), some (0, (1, 1))),
          (((1 : Int), (0 : Int)), some (0, (1, 1))),
          (((0 : Int), (1 : Int)), some (0, (1, 1))),
          (((1 : Int), (2 : Int)), some (0, (1, 1))),
          (((1 : Int), (1 : Int)), none)]
        [(((2 : Int), (1 : Int)), 0), (((1 : Int), (0 : Int)), 0),
          (((0 : Int), (1 : Int)), 0), (((1 : Int), (2 : Int)), 0),
          (((1 : Int), (1 : Int)), 0)]).tc = some w ∧ w ≤ 0 :=
  (c4_turn_count_downward_only gridA (1, 1) 0 (mtInit (1, 1)) rfl).2 1 _
    (by omega) (by rfl) (1, 1) 0 rfl

/-- C5: the claim that `MinTurns.search()` returns zero turns and length 1
when start equals end is false: the start's route entry is the sentinel
`None`, so `make_path` takes its `route.get(end) is None` branch and the
search returns `'No path found.'` even on the 1×1 open grid. -/
theorem c5_minturns_start_eq_end_no_path :
    mtSearch gridDot (0, 0) (0, 0) = some MTResult.noPath ∧
    MTResult.noPath ≠ MTResult.found 0 1 := by
  refine ⟨by decide, by decide⟩

/-- C6: for every grid, when start and end coincide (at an open in-bounds
cell of a square grid), `ShortestRoute.search()` returns path length 1: the
first frontier pop is the end itself and `make_path` walks the single-entry
route `{start: (1, None)}`. -/
theorem c6_shortest_start_eq_end (g : Grid) (s : Pos)
    (hsq : SquareGrid g) (hin : inGrid g s) (hop : openCell g s) :
    srSearch g s s = some (SRResult.found 1) := by
  have hf : fuelBound g = 5 * g.length * g.length + 9 + 1 := by
    unfold fuelBound; omega
  unfold srSearch
  rw [hf]
  simp [srLoop, srStep, srInit, popMin, selMin, srWalk, List.lookup]

/-- Closed witness for `c6_shortest_start_eq_end` on the 1×1 open grid. -/
theorem c6_shortest_start_eq_end_witness :
    SquareGrid gridDot ∧ inGrid gridDot (0, 0) ∧ openCell gridDot (0, 0) ∧
      srSearch gridDot (0, 0) (0, 0) = some (SRResult.found 1) :=
  ⟨by decide, by decide, by decide,
    c6_shortest_start_eq_end gridDot (0, 0) (by decide) (by decide) (by decide)⟩

/-- C8: whenever the end cell is not connected to the start cell through
open cells (including the case of a start with no open neighbors and a
distinct end), both searches return the `'No path found.'` result: every
frontier entry and route key stays inside the open component of the start,
so `MinTurns.make_path` finds no route entry for the end and
`ShortestRoute.search`'s loop drains its frontier without popping the end. -/
theorem c8_disconnected_no_path (g : Grid) (s e : Pos)
    (hsq : SquareGrid g) (hins : inGrid g s) (hops : openCell g s)
    (hnr : ¬Reaches g s e) :
    mtSearch g s e = some MTResult.noPath ∧
      srSearch g s e = some SRResult.noPath := by
  constructor
  · obtain ⟨fin, hfin, heq⟩ := mtSearch_run (e := e) hins hops
    rw [heq]
    unfold mtMakePath
    cases hlook : List.lookup e fin.route with
    | none => rfl
    | some r =>
      exact absurd (hfin.route_reach e r hlook) hnr
  · obtain ⟨r, hrun, hchar⟩ := srLoop_run (fuelBound g) (srInit s)
      (srInv_init hins hops) (srMeasure_init s)
    unfold srSearch
    rw [hrun]
    rcases hchar with rfl | ⟨_, hre⟩
    · rfl
    · exact absurd hre hnr

/-- Closed witness for `c8_disconnected_no_path` on the split 2×2 grid. -/
theorem c8_disconnected_no_path_witness :
    (SquareGrid gridSplit ∧ inGrid gridSplit (0, 0) ∧
      openCell gridSplit (0, 0) ∧ ¬Reaches gridSplit (0, 0) (1, 1)) ∧
    mtSearch gridSplit (0, 0) (1, 1) = some MTResult.noPath ∧
      srSearch gridSplit (0, 0) (1, 1) = some SRResult.noPath := by
  have hnr : ¬Reaches gridSplit (0, 0) (1, 1) := by
    intro h
    rcases Relation.ReflTransGen.cases_head h with heq | ⟨c, hstep, _⟩
    · exact absurd heq (by decide)
    · have hc : c ∈ srFindNeighbors gridSplit (0, 0) := hstep
      have hnil : srFindNeighbors gridSplit (0, 0) = [] := by decide
      rw [hnil] at hc
      simp at hc
  exact ⟨⟨by decide, by decide, by decide, hnr⟩,
    c8_disconnected_no_path gridSplit (0, 0) (1, 1) (by decide) (by decide)
      (by decide) hnr⟩

/-- C9: on a square grid with in-bounds open start and end, both searches
terminate: each loop iteration either discards a stale frontier entry or
finalizes a fresh cell while pushing at most four entries, so the fuel
`5·N² + 10` is never exhausted and a result is produced. -/
theorem c9_searches_terminate (g : Grid) (s e : Pos)
    (hsq : SquareGrid g) (hins : inGrid g s) (hops : openCell g s)
    (hine : inGrid g e) (hope : openCell g e) :
    (mtSearch g s e).isSome ∧ (srSearch g s e).isSome := by
  constructor
  · obtain ⟨fin, hfin, heq⟩ := mtSearch_run (e := e) hins hops
    rw [heq]
    unfold mtMakePath
    cases hlook : List.lookup e fin.route with
    | none => rfl
    | some r =>
      cases r with
      | none => rfl
      | some vq =>
        have hchain := hfin.route_chain e (some vq) hlook
        have hwalk := mtChain_walk e hchain (fin.visited.length + 1) e 0 0 1
          (by omega)
        show ((mtWalk e fin.route (fin.visited.length + 1) e e 0 0 1).map
          fun r => MTResult.found r.1 r.2).isSome = true
        cases hw : mtWalk e fin.route (fin.visited.length + 1) e e 0 0 1 with
        | none => rw [hw] at hwalk; cases hwalk
        | some pr => rfl
  · obtain ⟨r, hrun, _⟩ := srLoop_run (fuelBound g) (srInit s)
      (srInv_init hins hops) (srMeasure_init s)
    unfold srSearch
    rw [hrun]
    rfl

/-- Closed witness for `c9_searches_terminate` on the 1×1 open grid. -/
theorem c9_searches_terminate_witness :
    (SquareGrid gridDot ∧ inGrid gridDot (0, 0) ∧ openCell gridDot (0, 0)) ∧
    (mtSearch gridDot (0, 0) (0, 0)).isSome ∧
      (srSearch gridDot (0, 0) (0, 0)).isSome :=
  ⟨⟨by decide, by decide, by decide⟩,
    c9_searches_terminate gridDot (0, 0) (0, 0) (by decide) (by decide)
      (by decide) (by decide) (by decide)⟩

/-- C10: in both searches, every route entry ever written binds a
not-yet-finalized cell to a predecessor that is an open, 4-adjacent, already
visited cell (the write-delta conjuncts), the start cell's entry is the
unique `None` terminator, and from any cell with a route entry the backward
predecessor walk of `make_path` completes — no missing key, no cycle —
reaching the terminator, i.e. the start. -/
theorem c10_route_entries_and_walk (g : Grid) (s : Pos)
    (hsq : SquareGrid g) (hin : inGrid g s) (hop : openCell g s) :
    (∀ i st, mtIter g s i (mtInit s) = some st →
        List.lookup s st.route = some none ∧
        (∀ p r, p ≠ s → List.lookup p st.route = some r →
          ∃ v q, r = some (v, q) ∧ q ∈ st.visited ∧ Adjacent q p ∧
            inGrid g q ∧ openCell g q) ∧
        (∀ e p r, List.lookup p st.route = some r →
          (mtWalk e st.route (st.visited.length + 1) p p 0 0 1).isSome)) ∧
    (∀ i st st', mtIter g s i (mtInit s) = some st →
        mtStep g s st = StepOut.next st' →
        ∀ p, List.lookup p st'.route ≠ List.lookup p st.route →
          p ∉ st'.visited ∧
            ∃ v q, List.lookup p st'.route = some (some (v, q)) ∧
              q ∈ st'.visited ∧ Adjacent q p ∧ inGrid g q ∧ openCell g q) ∧
    (∀ e i st, srIter g e i (srInit s) = some st →
        (∃ v, List.lookup s st.route = some (v, none)) ∧
        (∀ p r, p ≠ s → List.lookup p st.route = some r →
          ∃ v q, r = (v, some q) ∧ q ∈ st.visited ∧ Adjacent q p ∧
            inGrid g q ∧ openCell g q) ∧
        (∀ p r, List.lookup p st.route = some r →
          (srWalk st.route (st.visited.length + 1) (some p) 0).isSome)) ∧
    (∀ e i st st', srIter g e i (srInit s) = some st →
        srStep g e st = StepOut.next st' →
        ∀ p, List.lookup p st'.route ≠ List.lookup p st.route →
          p ∉ st'.visited ∧
            ∃ v q, List.lookup p st'.route = some (v, some q) ∧
              q ∈ st'.visited ∧ Adjacent q p ∧ inGrid g q ∧ openCell g q) := by
  refine ⟨?_, ?_, ?_, ?_⟩
  · intro i st hiter
    have hst := mtIter_inv i (mtInv_init hin hop) hiter
    refine ⟨hst.route_start, ?_, ?_⟩
    · intro p r hp hlook
      obtain ⟨v, q, hr⟩ := hst.route_shape p r hp hlook
      subst hr
      obtain ⟨hqv, hadj, _, _⟩ := hst.route_pred p v q hlook
      have hc := hst.vis_cells q hqv
      exact ⟨v, q, rfl, hqv, hadj, hc.1, hc.2⟩
    · intro e p r hlook
      have hchain := hst.route_chain p r hlook
      exact mtChain_walk e hchain (st.visited.length + 1) p 0 0 1 (by omega)
  · intro i st st' hiter hstep
    exact mtStepWrites (mtIter_inv i (mtInv_init hin hop) hiter) hstep
  · intro e i st hiter
    have hst := srIter_inv i (srInv_init hin hop) hiter
    refine ⟨hst.route_start, ?_, ?_⟩
    · intro p r hp hlook
      obtain ⟨v, q, hr⟩ := hst.route_shape p r hp hlook
      subst hr
      obtain ⟨hqv, hadj, _, _⟩ := hst.route_pred p v q hlook
      have hc := hst.vis_cells q hqv
      exact ⟨v, q, rfl, hqv, hadj, hc.1, hc.2⟩
    · intro p r hlook
      have hchain := hst.route_chain p r hlook
      exact srChain_walk hchain (st.visited.length + 1) 0 (by omega)
  · intro e i st st' hiter hstep
    exact srStepWrites (srIter_inv i (srInv_init hin hop) hiter) hstep

/-- Closed witness for `c10_route_entries_and_walk` on the 1×1 open grid:
after zero iterations the start's route entry is the `None` terminator. -/
theorem c10_route_entries_and_walk_witness :
    List.lookup ((0 : Int), (0 : Int)) (mtInit ((0 : Int), (0 : Int))).route =
      some none :=
  ((c10_route_entries_and_walk gridDot (0, 0) (by decide) (by decide)
    (by decide)).1 0 (mtInit (0, 0)) rfl).1

/-- C7: on the spec's concrete 3×3 grid `['.x.', '...', '.x.']` with start
`(0, 0)` and end `(0, 2)`, `ShortestRoute.search()` returns length 5 and
`MinTurns.search()` reports exactly 2 turns. -/
theorem c7_concrete_detour_grid :
    srSearch gridDetour (0, 0) (0, 2) = some (SRResult.found 5) ∧
    mtSearch gridDetour (0, 0) (0, 2) = some (MTResult.found 2 5) := by
  refine ⟨by decide, by decide⟩

end AStar
